import Mathlib

/-!
Shallow embedding of the regex-to-minimal-DFA pipeline of the repository
(src/src/regex.rs and src/src/dfa.rs).  The NFA interface, whose defining
module (src/nfa.rs, src/fa.rs) is not part of the provided sources, is
modelled from the specification's external-collaborator contract (spec §6).

Modelling conventions:
* Rust strings are modelled as `List Char`; `str::chars().nth i` becomes
  `List.get? i`.  The source compares character indices against the byte
  length `str::len()`; the two coincide on ASCII patterns, and the model
  uses the character count throughout.
* A Rust panic (`unwrap` of `None`, out-of-bounds index, pop of an empty
  queue) is modelled by the distinguished result `PRes.crash`.
* The recursive-descent parser is embedded with an explicit fuel
  parameter (the source recursion always advances through the input, so
  any fuel larger than a small multiple of the input length is enough;
  the entry point `build_syntax_tree` supplies such a fuel).  Fuel
  exhaustion is mapped to `PRes.crash` and is unreachable at the fuel
  used by the entry point for the inputs appearing in the theorems.
* Rust `HashSet` / bit-set values are modelled as `Finset Nat`
  (respectively `Finset Char`), `HashMap` as an association list or as a
  function into `Option`.  Hash-iteration order is unspecified in the
  source; the model fixes ascending order (`ascList`).
-/

namespace CT

/-- Quantifier enum from regex.rs. -/
inductive Quantifier
  | Star
  | Question
  | Plus
deriving DecidableEq, Repr

/-- Structured parse errors from regex.rs (RegExError). -/
inductive RegExError
  | MalformedMicrosyntaxError (s : List Char)
  | InvalidRegexError (s : List Char)
  | UnbalancedParenthesisError (s : List Char)
  | FileOpenError (s : List Char)
  | FileReadError (s : List Char)
  | InvalidCharacterRange (a b : Char)
  | InvalidEscapeCharacter (c : Char)
deriving DecidableEq, Repr

mutual

/-- Base layer of the syntax tree from regex.rs. -/
inductive Base
  | Character (c : Char)
  | EscapeCharacter (c : Char)
  | Exp (r : RegEx)
  | CharSet (s : Finset Char)

/-- Factor layer of the syntax tree from regex.rs. -/
inductive Factor
  | SimpleFactor (b : Base) (q : Option Quantifier)

/-- Term layer of the syntax tree from regex.rs. -/
inductive Term
  | SimpleTerm (f : Factor)
  | ConcatTerm (f : Factor) (t : Term)

/-- RegEx layer of the syntax tree from regex.rs. -/
inductive RegEx
  | SimpleRegex (t : Term)
  | AlterRegex (t : Term) (r : RegEx)

end

/-- Result of a fallible parser step: a value, a structured error
(`Result::Err` in the source), or `crash`, which models a Rust panic
(`unwrap` of `None`); `crash` is also used for fuel exhaustion of the
embedding, which is unreachable at the fuel of the entry point. -/
inductive PRes (α : Type)
  | ok (a : α)
  | err (e : RegExError)
  | crash
deriving DecidableEq, Repr

/-- Stack loop of balanced_brackets (regex.rs): a character following a
backslash is skipped; parentheses and square brackets must nest. -/
def balanced_loop : List Char → List Char → Bool
  | [], stack => stack = []
  | '\\' :: [], stack => stack = []
  | '\\' :: _ :: rest, stack => balanced_loop rest stack
  | '(' :: rest, stack => balanced_loop rest ('(' :: stack)
  | ')' :: rest, stack =>
      match stack with
      | '(' :: stack' => balanced_loop rest stack'
      | _ => false
  | '[' :: rest, stack => balanced_loop rest ('[' :: stack)
  | ']' :: rest, stack =>
      match stack with
      | '[' :: stack' => balanced_loop rest stack'
      | _ => false
  | _ :: rest, stack => balanced_loop rest stack

/-- balanced_brackets from regex.rs. -/
def balanced_brackets (regex : List Char) : Bool :=
  balanced_loop regex []

/-- nchar_is_valid from regex.rs: characters that may NOT begin a base. -/
def nchar_is_valid (nchar : Char) : Bool :=
  !(nchar = '*' || nchar = '|' || nchar = '?' || nchar = ')' || nchar = ']')

/-- is_escape_char from regex.rs. -/
def is_escape_char (c : Char) : Bool :=
  c = 'n' || c = 't' || c = 'r' || c = '\\' || c = '(' || c = ')' ||
  c = '[' || c = ']' || c = '|' || c = '*' || c = '+' || c = '?'

/-- Mapping applied to a recognized escape character (the match block in
parse_char_class and the identical convention used elsewhere):
n, t, r become control characters, the rest map to themselves. -/
def unescape (c : Char) : Char :=
  if c = 'n' then '\n' else if c = 't' then '\t' else if c = 'r' then '\r' else c

/-- Character range char_start..=char_end from parse_char_class, via code
points.  (The Rust char successor skips the surrogate block; the ranges
appearing in this development do not straddle it.) -/
def charRange (a b : Char) : Finset Char :=
  ((List.range (b.toNat + 1 - a.toNat)).map (fun k => Char.ofNat (a.toNat + k))).toFinset

/-- parse_char_class from regex.rs.  `cs` is the accumulated char_set
(empty at the call site in parse_base).  The source indexes
`nth(new_start + 1)` and `nth(new_start + 2)` with `unwrap`, which
panics (`crash`) when the class runs past the end of the input.  The
while loop is embedded with fuel; every iteration advances the position,
so fuel `regex.length + 1` (supplied in parse_base below) is enough. -/
def parse_char_class (regex : List Char) : Nat → Finset Char → Nat → PRes (Finset Char × Nat)
  | 0, _, _ => .crash
  | fuel + 1, cs, start =>
    if start < regex.length then
      let c0 := regex.getD start ' '
      if c0 = ']' then .ok (cs, start)
      else
        match regex.get? (start + 1) with
        | none => .crash
        | some c1 =>
          if c1 = '-' then
            match regex.get? (start + 2) with
            | none => .crash
            | some c2 =>
              if c2 < c0 then .err (.InvalidCharacterRange c0 c2)
              else parse_char_class regex fuel (cs ∪ charRange c0 c2) (start + 3)
          else if c0 = '\\' then
            if is_escape_char c1 then parse_char_class regex fuel (insert (unescape c1) cs) (start + 2)
            else .err (.InvalidEscapeCharacter c1)
          else parse_char_class regex fuel (insert c0 cs) (start + 1)
    else .ok (cs, start)

/-- Bundle of the five mutually recursive parsing functions of regex.rs
at a given fuel level.  The mutual recursion is stratified over fuel so
that the definitions are structurally recursive (and hence compute by
kernel reduction); `parse_base` … `parse_regex` below are the named
projections and carry the correspondence to the source. -/
structure PFuns : Type where
  base : Nat → PRes (Base × Nat)
  factor : Nat → PRes (Factor × Nat)
  termLoop : Term → Nat → PRes (Term × Nat)
  term : Nat → PRes (Term × Nat)
  rx : Nat → PRes (RegEx × Nat)

/-- Crashing bundle used at fuel 0 (fuel exhaustion; unreachable at the
fuel supplied by the entry points). -/
def PFuns.empty : PFuns :=
  ⟨fun _ => .crash, fun _ => .crash, fun _ _ => .crash, fun _ => .crash, fun _ => .crash⟩

/-- One stratification layer: the bodies of parse_base, parse_factor,
the while loop of parse_term, parse_term and parse_regex from regex.rs,
with recursive occurrences replaced by the previous layer `p`. -/
def parseLayer (regex : List Char) (p : PFuns) : PFuns where
  base := fun start =>
    match regex.get? start with
    | none => .err (.InvalidRegexError regex)
    | some nchar =>
      if nchar = '(' then
        match p.rx (start + 1) with
        | .ok (inner, ns) => .ok (.Exp inner, ns + 1)
        | .err e => .err e
        | .crash => .crash
      else if nchar = '[' then
        match parse_char_class regex (regex.length + 1) ∅ (start + 1) with
        | .ok (cs, ns) => .ok (.CharSet cs, ns + 1)
        | .err e => .err e
        | .crash => .crash
      else if nchar = '\\' then
        match regex.get? (start + 1) with
        | none => .crash
        | some e1 =>
          if is_escape_char e1 then .ok (.EscapeCharacter e1, start + 2)
          else .err (.InvalidEscapeCharacter e1)
      else if nchar_is_valid nchar then .ok (.Character nchar, start + 1)
      else .err (.InvalidRegexError regex)
  factor := fun start =>
    match p.base start with
    | .ok (b, ns) =>
      match regex.get? ns with
      | some '*' => .ok (.SimpleFactor b (some .Star), ns + 1)
      | some '?' => .ok (.SimpleFactor b (some .Question), ns + 1)
      | some '+' => .ok (.SimpleFactor b (some .Plus), ns + 1)
      | _ => .ok (.SimpleFactor b none, ns)
    | .err e => .err e
    | .crash => .crash
  termLoop := fun prev start =>
    match regex.get? start with
    | none => .ok (prev, start)
    | some nchar =>
      if nchar = '|' || nchar = ')' then .ok (prev, start)
      else
        match p.factor start with
        | .ok (f, ns) => p.termLoop (.ConcatTerm f prev) ns
        | .err e => .err e
        | .crash => .crash
  term := fun start =>
    match p.factor start with
    | .ok (f, ns) => p.termLoop (.SimpleTerm f) ns
    | .err e => .err e
    | .crash => .crash
  rx := fun start =>
    if balanced_brackets regex = false then .err (.UnbalancedParenthesisError regex)
    else if regex.length = 0 then .err (.InvalidRegexError regex)
    else
      match p.term start with
      | .ok (t, ns) =>
        if ns ≥ regex.length then .ok (.SimpleRegex t, ns)
        else if regex.getD ns ' ' = '|' then
          match p.rx (ns + 1) with
          | .ok (r, ns2) => .ok (.AlterRegex t r, ns2)
          | .err e => .err e
          | .crash => .crash
        else .ok (.SimpleRegex t, ns)
      | .err e => .err e
      | .crash => .crash

/-- Fuel-stratified tower of the parser bundles. -/
def parseFuns (regex : List Char) : Nat → PFuns
  | 0 => PFuns.empty
  | fuel + 1 => parseLayer regex (parseFuns regex fuel)

/-- parse_base from regex.rs.  The group branch consumes the closing
parenthesis blindly (`new_start + 1`); the escape branch `unwrap`s the
character after the backslash, panicking at end of input. -/
def parse_base (regex : List Char) (fuel start : Nat) : PRes (Base × Nat) :=
  (parseFuns regex fuel).base start

/-- parse_factor from regex.rs: a base followed by an optional
quantifier read by one-character lookahead. -/
def parse_factor (regex : List Char) (fuel start : Nat) : PRes (Factor × Nat) :=
  (parseFuns regex fuel).factor start

/-- While loop of parse_term from regex.rs: keep parsing factors until
end of input, '|' or ')'; each new factor becomes the outer ConcatTerm
with the previous term boxed inside. -/
def parse_term_loop (regex : List Char) (fuel : Nat) (prev : Term) (start : Nat) :
    PRes (Term × Nat) :=
  (parseFuns regex fuel).termLoop prev start

/-- parse_term from regex.rs. -/
def parse_term (regex : List Char) (fuel start : Nat) : PRes (Term × Nat) :=
  (parseFuns regex fuel).term start

/-- parse_regex from regex.rs: checks bracket balance and non-emptiness
of the whole pattern, parses a term, then an optional '|' alternation. -/
def parse_regex (regex : List Char) (fuel start : Nat) : PRes (RegEx × Nat) :=
  (parseFuns regex fuel).rx start

/-- Fuel that is ample for the mutual recursion above on a given input
(every recursive call advances the position or enters a strictly later
alternative, so the nesting depth is linear in the length). -/
def parserFuel (regex : List Char) : Nat :=
  8 * regex.length + 16

/-- build_syntax_tree from regex.rs: parse from index 0, discard the
final index. -/
def build_syntax_tree (regex : List Char) : PRes RegEx :=
  match parse_regex regex (parserFuel regex) 0 with
  | .ok (t, _) => .ok t
  | .err e => .err e
  | .crash => .crash

/-- parse_microsyntax_list from regex.rs: parse each (pattern, category)
pair in order, keeping the order; the first failure aborts the whole
computation with that failure. -/
def parse_microsyntax_list :
    List (List Char × List Char) → PRes (List (List Char × RegEx × List Char))
  | [] => .ok []
  | (regex, category) :: rest =>
    match build_syntax_tree regex with
    | .ok t =>
      match parse_microsyntax_list rest with
      | .ok l => .ok ((regex, t, category) :: l)
      | .err e => .err e
      | .crash => .crash
    | .err e => .err e
    | .crash => .crash

/-- Final index of a successful parse, used to state input-consumption
properties. -/
def parseIndex {α : Type} : PRes (α × Nat) → Option Nat
  | .ok (_, i) => some i
  | _ => none

/-- Ascending enumeration of a finite set of naturals (the model's
stand-in for iterating a HashSet / the set bits of a bitset; it computes
by kernel reduction, unlike `Finset.sort`). -/
def ascList (B : Finset Nat) : List Nat :=
  (List.range (B.sup id + 1)).filter (fun x => x ∈ B)

/-- Transition label from fa.rs (`Symbol`): a literal character or ε. -/
inductive Symbol
  | Char (c : Char)
  | Epsilon
deriving DecidableEq, Repr

/-- Modelled from the spec: the NFA surface consumed by the subset
constructor (spec §6 contract with the external NFA builder; the
defining module src/nfa.rs is not among the provided sources).  States
are the dense identifiers 0 .. numStates - 1; `transitions s` is the
per-state transition lookup returning target sets per symbol (state
records carry their own index as id, so `get_state i` / `get_id` is the
identity on indices); `acceptors` is the acceptor bitset, `alphabet`
the character set, `regex` the originating pattern text. -/
structure NFA where
  numStates : Nat
  transitions : Nat → Symbol → Finset Nat
  startState : Nat
  acceptors : Finset Nat
  alphabet : List Char
  regex : String

/-- Well-formedness of the modelled NFA (spec §3 invariants): every
transition target of a valid state is a valid state, as are the start
state and the acceptors. -/
def NFA.wf (nfa : NFA) : Prop :=
  (∀ s < nfa.numStates, ∀ sym : Symbol, ∀ t ∈ nfa.transitions s sym, t < nfa.numStates) ∧
  nfa.startState < nfa.numStates ∧
  ∀ a ∈ nfa.acceptors, a < nfa.numStates

/-- Work-queue loop of get_epsilon_closure (dfa.rs): pop a state, add
its unvisited ε-targets to the visited set and the back of the queue,
and record the popped state itself in the closure.  The source's
`VecDeque` is a `List Nat`; the bit-vectors `visited` and
`epsilon_closure` are `Finset Nat`.  HashSet iteration order of the
ε-target set is unspecified in the source; the model enqueues fresh
targets in ascending order.  The loop is embedded with fuel; each
iteration pops once and every push freshly visits a state `< numStates`
(for a well-formed NFA), so the fuel chosen in get_epsilon_closure is
never exhausted there. -/
def get_epsilon_closure_loop (nfa : NFA) :
    Nat → List Nat → Finset Nat → Finset Nat → Finset Nat
  | 0, _, _, clo => clo
  | _ + 1, [], _, clo => clo
  | fuel + 1, s :: rest, visited, clo =>
    let fresh := nfa.transitions s Symbol.Epsilon \ visited
    get_epsilon_closure_loop nfa fuel (rest ++ ascList fresh) (visited ∪ fresh)
      (insert s clo)

/-- get_epsilon_closure from dfa.rs: seed the queue with the given
states (`iter_ones`, i.e. ascending), then run the work-queue loop. -/
def get_epsilon_closure (nfa : NFA) (nfa_states : Finset Nat) : Finset Nat :=
  get_epsilon_closure_loop nfa (nfa_states.card + nfa.numStates + 1)
    (ascList nfa_states) ∅ ∅

/-- delta from dfa.rs: the union over the states of `q` of their
`Symbol::Char c` target sets (states without a transition on `c`
contribute nothing, like the `None => continue`). -/
def delta (nfa : NFA) (q : Finset Nat) (c : Char) : Finset Nat :=
  q.biUnion (fun node => nfa.transitions node (Symbol.Char c))

/-- DFAState from dfa.rs: a dense id and a HashMap from Symbol to a
single destination, modelled as a function into Option. -/
structure DFAState where
  id : Nat
  transitions : Symbol → Option Nat

/-- DFA from dfa.rs: dense state records, start id, acceptor bitset
(`List Bool`, supporting push and set like `BitVec`), alphabet and the
originating pattern. -/
structure DFA where
  states : List DFAState
  start_state : Nat
  accept_states : List Bool
  alphabet : List Char
  regex : String

/-- DFA::new from dfa.rs. -/
def DFA.new : DFA :=
  ⟨[], 0, [], [], ""⟩

/-- add_state from dfa.rs: push a fresh state (its id is the previous
length) and a false acceptor bit; return the new id. -/
def DFA.add_state : DFA → DFA × Nat
  | ⟨st, ss, ac, al, rg⟩ =>
    (⟨st ++ [⟨st.length, fun _ => none⟩], ss, ac ++ [false], al, rg⟩, st.length)

/-- set_accept_state from dfa.rs (`BitVec::set`): in the source an
out-of-range index panics; every call site below stays in range. -/
def DFA.set_accept_state : DFA → Nat → DFA
  | ⟨st, ss, ac, al, rg⟩, i => ⟨st, ss, ac.set i true, al, rg⟩

/-- add_transition from dfa.rs: HashMap::insert on the `src` state's
transition map (overwriting any previous target for the symbol). -/
def DFA.add_transition : DFA → Nat → Symbol → Nat → DFA
  | ⟨st, ss, ac, al, rg⟩, src, sym, tgt =>
    ⟨st.modify (fun q => ⟨q.id, fun sym' => if sym' = sym then some tgt else q.transitions sym'⟩)
        src,
      ss, ac, al, rg⟩

/-- Field update used for `result.alphabet = nfa.get_alphabet().clone()`. -/
def DFA.setAlphabet : DFA → List Char → DFA
  | ⟨st, ss, ac, _, rg⟩, al => ⟨st, ss, ac, al, rg⟩

/-- Field update used for `result.start_state = di`. -/
def DFA.setStart : DFA → Nat → DFA
  | ⟨st, _, ac, al, rg⟩, ss => ⟨st, ss, ac, al, rg⟩

/-- set_regex from dfa.rs. -/
def DFA.set_regex : DFA → String → DFA
  | ⟨st, ss, ac, al, _⟩, rg => ⟨st, ss, ac, al, rg⟩

/-- get_state from dfa.rs: the source panics on an invalid index; the
model returns an inert default there, which no call site reaches under
the well-formedness hypotheses of the theorems. -/
def DFA.getState (d : DFA) (i : Nat) : DFAState :=
  (d.states.get? i).getD ⟨0, fun _ => none⟩

/-- Acceptor bit of a DFA state (reading the bitset; false out of
range). -/
def DFA.acceptBit (d : DFA) (i : Nat) : Bool :=
  d.accept_states.getD i false

/-- Association-list lookup for the `state_sets` HashMap of
construct_dfa, keyed by NFA state sets. -/
def lookupQ (ql : List (Finset Nat × Nat)) (q : Finset Nat) : Option Nat :=
  match ql.find? (fun p => p.1 = q) with
  | some p => some p.2
  | none => none

/-- Body of `for c in dfa_alphabet` inside the work-list loop of
construct_dfa (dfa.rs): compute `δ(q, c)`, skip if empty, take its
ε-closure `t`, register a fresh DFA state for an unseen `t` (marking it
accepting iff `t` intersects the NFA acceptors), then add the
transition from the state of `q` to the state of `t`.  The two final
HashMap lookups are `unwrap`ed in the source; `q` and `t` are always
registered at that point, so the default is never read. -/
def dfa_char_step (nfa : NFA) (q : Finset Nat) :
    DFA × List (Finset Nat × Nat) × List (Finset Nat) → Char →
    DFA × List (Finset Nat × Nat) × List (Finset Nat)
  | (d, ql, wl), c =>
    let ends := delta nfa q c
    if ends = ∅ then (d, ql, wl)
    else
      let t := get_epsilon_closure nfa ends
      let next :=
        match lookupQ ql t with
        | some _ => (d, ql, wl)
        | none =>
          let di := d.add_state
          let d1 := if (t ∩ nfa.acceptors).Nonempty then di.1.set_accept_state di.2 else di.1
          (d1, ql ++ [(t, di.2)], wl ++ [t])
      let dq := (lookupQ next.2.1 q).getD 0
      let dt := (lookupQ next.2.1 t).getD 0
      (next.1.add_transition dq (Symbol.Char c) dt, next.2.1, next.2.2)

/-- Work-list loop of construct_dfa (dfa.rs), embedded with fuel: pop a
state set from the front, fold the alphabet step over it (new sets are
pushed to the back).  The loop terminates because every pushed set is
new to `state_sets`, of which there are at most 2 ^ numStates; the fuel
chosen in construct_dfa covers that bound.  The mapping `state_sets`
(`ql`) is returned alongside the DFA so the correspondence between DFA
states and the NFA sets they were created from can be stated. -/
def construct_dfa_loop (nfa : NFA) :
    Nat → DFA × List (Finset Nat × Nat) × List (Finset Nat) → DFA × List (Finset Nat × Nat)
  | 0, (d, ql, _) => (d, ql)
  | fuel + 1, (d, ql, wl) =>
    match wl with
    | [] => (d, ql)
    | q :: rest =>
      construct_dfa_loop nfa fuel (nfa.alphabet.foldl (dfa_char_step nfa q) (d, ql, rest))

/-- Pre-loop part of construct_dfa (dfa.rs): fresh DFA with the NFA's
alphabet, an initial state d0 = 0 marked start, `q0` the ε-closure of
the NFA start singleton, d0 accepting iff `q0` meets the acceptors,
and `q0` registered and enqueued. -/
def construct_dfa_init (nfa : NFA) : DFA × List (Finset Nat × Nat) × List (Finset Nat) :=
  let d := DFA.new.setAlphabet nfa.alphabet
  let di := d.add_state
  let d1 := di.1.setStart di.2
  let q0 := get_epsilon_closure nfa {nfa.startState}
  let d2 := if (q0 ∩ nfa.acceptors).Nonempty then d1.set_accept_state di.2 else d1
  (d2, [(q0, di.2)], [q0])

/-- construct_dfa from dfa.rs at a given fuel, together with its
`state_sets` mapping.  (The trailing `set_regex`, Graphviz rendering and
the call to construct_minimal_dfa — which only prints — are the
out-of-scope peripherals of the source and carry no automaton change
besides the regex field, applied here.) -/
def construct_dfa_full (nfa : NFA) (fuel : Nat) : DFA × List (Finset Nat × Nat) :=
  let r := construct_dfa_loop nfa fuel (construct_dfa_init nfa)
  (r.1.set_regex nfa.regex, r.2)

/-- construct_dfa from dfa.rs with fuel covering the 2 ^ numStates bound
on distinct discovered state sets. -/
def construct_dfa (nfa : NFA) : DFA × List (Finset Nat × Nat) :=
  construct_dfa_full nfa (2 ^ nfa.numStates + 1)

/-- Values side of the minimizer's LookupTable: `set_to_states_map`
modelled as an association list with unique keys (HashMap<usize,
HashSet<usize>>); the list order stands in for the unspecified hash
iteration order. -/
abbrev SetMap : Type := List (Nat × Finset Nat)

/-- HashMap::get on the association list. -/
def lookupA : SetMap → Nat → Option (Finset Nat)
  | [], _ => none
  | (k', S) :: rest, k => if k' = k then some S else lookupA rest k

/-- `entry(set).or_insert_with(HashSet::new).insert(state)` from
insert_state_in_set. -/
def addMember : SetMap → Nat → Nat → SetMap
  | [], k, s => [(k, {s})]
  | (k', S) :: rest, k, s =>
    if k' = k then (k', insert s S) :: rest else (k', S) :: addMember rest k s

/-- `prev_set.remove(&state); if prev_set.is_empty() { remove key }`
from insert_state_in_set (a no-op when the key is absent, matching the
`if let Some(prev_set) = get_mut(..)`). -/
def removeMember : SetMap → Nat → Nat → SetMap
  | [], _, _ => []
  | (k', S) :: rest, k, s =>
    if k' = k then
      let S' := S.erase s
      if S' = ∅ then rest else (k', S') :: rest
    else (k', S) :: removeMember rest k s

/-- LookupTable from dfa.rs: the two inverse mappings of the minimizer.
`state_to_set_map` (HashMap<usize, usize>) is a function into Option,
`set_to_states_map` the association list above. -/
structure LookupTable where
  state_to_set_map : Nat → Option Nat
  set_to_states_map : SetMap

/-- LookupTable::new from dfa.rs. -/
def LookupTable.new : LookupTable :=
  ⟨fun _ => none, []⟩

/-- insert_state_in_set from dfa.rs: record the new set for the state
(capturing the previous one), remove the state from its previous set —
deleting that set if it became empty — insert it into the new set, and
then (the source's trailing duplicate, idempotent on a HashSet) insert
it into the new set once more. -/
def LookupTable.insert_state_in_set (t : LookupTable) (state k : Nat) : LookupTable :=
  let prev := t.state_to_set_map state
  let mp := fun s => if s = state then some k else t.state_to_set_map s
  let s2s :=
    match prev with
    | none => addMember t.set_to_states_map k state
    | some prevKey => addMember (removeMember t.set_to_states_map prevKey state) k state
  ⟨mp, addMember s2s k state⟩

/-- get_set_of_state from dfa.rs. -/
def LookupTable.get_set_of_state (t : LookupTable) (state : Nat) : Option Nat :=
  t.state_to_set_map state

/-- get_states_in_set from dfa.rs. -/
def LookupTable.get_states_in_set (t : LookupTable) (k : Nat) : Option (Finset Nat) :=
  lookupA t.set_to_states_map k

/-- get_num_sets from dfa.rs (`HashMap::len`). -/
def LookupTable.get_num_sets (t : LookupTable) : Nat :=
  t.set_to_states_map.length

/-- get_sets from dfa.rs (`HashMap::values`). -/
def LookupTable.get_sets (t : LookupTable) : List (Finset Nat) :=
  t.set_to_states_map.map Prod.snd

/-- Indices of set bits of the acceptor bitset (`iter_ones`,
ascending). -/
def onesIdx (l : List Bool) : List Nat :=
  (List.range l.length).filter (fun i => l.getD i false = true)

/-- Indices of clear bits of the acceptor bitset (`iter_zeros`,
ascending). -/
def zerosIdx (l : List Bool) : List Nat :=
  (List.range l.length).filter (fun i => l.getD i false = false)

/-- Initial partition of construct_minimal_dfa (dfa.rs): acceptor
states into set 0, the remaining states into set 1 (either loop is
empty when there are no such states). -/
def initTable (dfa : DFA) : LookupTable :=
  let t := (onesIdx dfa.accept_states).foldl
    (fun t s => t.insert_state_in_set s 0) LookupTable.new
  (zerosIdx dfa.accept_states).foldl (fun t s => t.insert_state_in_set s 1) t

/-- `for c in alphabet` comparison loop of construct_minimal_dfa
(dfa.rs) for one state of the block under refinement: on a one-sided
transition, move the state into `nextSet` and continue with the next
symbol; when both destinations exist but lie in different sets (the
source `unwrap`s both lookups — under the table invariants every
destination is mapped, so the model's default is never read), move the
state and break out of the symbol loop. -/
def splitSymbols (dfa : DFA) (mTrans : Symbol → Option Nat) (nextSet sid : Nat) :
    LookupTable → List Char → LookupTable
  | t, [] => t
  | t, c :: rest =>
    match (dfa.getState sid).transitions (Symbol.Char c), mTrans (Symbol.Char c) with
    | none, none => splitSymbols dfa mTrans nextSet sid t rest
    | some _, none => splitSymbols dfa mTrans nextSet sid (t.insert_state_in_set sid nextSet) rest
    | none, some _ => splitSymbols dfa mTrans nextSet sid (t.insert_state_in_set sid nextSet) rest
    | some sd, some md =>
      if (t.state_to_set_map sd).getD 0 = (t.state_to_set_map md).getD 0 then
        splitSymbols dfa mTrans nextSet sid t rest
      else t.insert_state_in_set sid nextSet

/-- Per-block step of the refinement pass of construct_minimal_dfa
(dfa.rs): skip singleton blocks, otherwise fix the candidate id
`next_set = get_num_sets() + 1`, pick the representative
(`set.iter().next()`; HashSet order is unspecified in the source, the
model takes the least element) and run the comparison loop for every
state of the snapshot block (the representative compares equal to
itself and never moves).  An empty block would panic in the source and
cannot occur under the table invariants; the model leaves the table
unchanged there. -/
def processSet (dfa : DFA) (t : LookupTable) (B : Finset Nat) : LookupTable :=
  if B.card = 1 then t
  else
    let next := t.get_num_sets + 1
    match ascList B with
    | [] => t
    | m :: _ =>
      (ascList B).foldl
        (fun t' sid => splitSymbols dfa ((dfa.getState m).transitions) next sid t' dfa.alphabet)
        t

/-- One iteration of the `loop` of construct_minimal_dfa (dfa.rs): fold
the per-block step over the snapshot (`get_sets().cloned().collect()`)
of the current blocks. -/
def refinePass (dfa : DFA) (t : LookupTable) : LookupTable :=
  t.get_sets.foldl (processSet dfa) t

/-- The `loop` of construct_minimal_dfa (dfa.rs), embedded with fuel:
stop when a pass leaves the number of sets unchanged.  The fuel chosen
in construct_minimal_dfa suffices, since the set count never decreases
and is bounded by the number of DFA states (the termination theorem
below). -/
def refineLoop (dfa : DFA) : Nat → LookupTable → LookupTable
  | 0, t => t
  | fuel + 1, t =>
    let n := t.get_num_sets
    let t' := refinePass dfa t
    if t'.get_num_sets = n then t' else refineLoop dfa fuel t'

/-- construct_minimal_dfa from dfa.rs: build the initial partition,
refine it to a fixpoint, and then — the source only prints the final
blocks — return the refined table together with the `minimal_dfa`
local, which is `DFA::new()` and is never populated (no reconstruction
of a minimal automaton happens). -/
def construct_minimal_dfa (dfa : DFA) : LookupTable × DFA :=
  (refineLoop dfa (dfa.states.length + 2) (initTable dfa), DFA.new)

/-- Concrete two-state DFA (both states accepting, no transitions),
used to exhibit the missing reconstruction. -/
def exDfaC1 : DFA :=
  ⟨[⟨0, fun _ => none⟩, ⟨1, fun _ => none⟩], 0, [true, true], [], ""⟩

/-- Factor-list view of the while loop of parse_term: the factors the
loop would consume from `start`, in source order, with the final
index.  Fuel bookkeeping matches parse_term_loop exactly. -/
def parse_factors_loop (regex : List Char) : Nat → Nat → PRes (List Factor × Nat)
  | 0, _ => .crash
  | fuel + 1, start =>
    match regex.get? start with
    | none => .ok ([], start)
    | some nchar =>
      if nchar = '|' || nchar = ')' then .ok ([], start)
      else
        match parse_factor regex fuel start with
        | .ok (f, ns) =>
          match parse_factors_loop regex fuel ns with
          | .ok (fs, j) => .ok (f :: fs, j)
          | .err e => .err e
          | .crash => .crash
        | .err e => .err e
        | .crash => .crash

/-- Factor-list view of parse_term: the first factor followed by the
factors of the loop. -/
def parse_factors (regex : List Char) : Nat → Nat → PRes (List Factor × Nat)
  | 0, _ => .crash
  | fuel + 1, start =>
    match parse_factor regex fuel start with
    | .ok (f, ns) =>
      match parse_factors_loop regex fuel ns with
      | .ok (fs, j) => .ok (f :: fs, j)
      | .err e => .err e
      | .crash => .crash
    | .err e => .err e
    | .crash => .crash

/-- Left-to-right concatenation of further factors onto an existing
term, exactly as the loop of parse_term nests them: each new factor
becomes the outer ConcatTerm. -/
def concatOnto (t : Term) (fs : List Factor) : Term :=
  fs.foldl (fun acc g => .ConcatTerm g acc) t

/-- Term built from a non-empty factor sequence `f :: fs` by the
parse_term nesting discipline. -/
def concatFold (f : Factor) (fs : List Factor) : Term :=
  concatOnto (.SimpleTerm f) fs

/-- Inverse-maps invariant of the minimizer's LookupTable: unique
partition ids, no empty member set, and a state maps to a partition id
iff it is a member of that partition's set. -/
def LookupTable.Inv (t : LookupTable) : Prop :=
  (t.set_to_states_map.map Prod.fst).Nodup ∧
  (∀ k S, lookupA t.set_to_states_map k = some S → S.Nonempty) ∧
  (∀ s k, t.state_to_set_map s = some k ↔
    ∃ S, lookupA t.set_to_states_map k = some S ∧ s ∈ S)

/-- Every state recorded in the table is a valid DFA state index. -/
def LookupTable.MapDom (t : LookupTable) (n : Nat) : Prop :=
  ∀ s k, t.state_to_set_map s = some k → s < n

/-- Every partition id in use is at most the current number of sets
(so `get_num_sets() + 1` is always fresh). -/
def LookupTable.KeysBound (t : LookupTable) : Prop :=
  ∀ p ∈ t.set_to_states_map, p.1 ≤ t.set_to_states_map.length

/-- Combined table invariant carried through the refinement. -/
def LookupTable.Good (t : LookupTable) (n : Nat) : Prop :=
  t.Inv ∧ t.MapDom n ∧ t.KeysBound

/-- Acceptor-bitset well-formedness of a DFA (spec §3: the bitset
ranges over exactly the state identifiers). -/
def DFA.wfAcc (d : DFA) : Prop :=
  d.accept_states.length = d.states.length

/-- Concrete NFA with one ε-transition, for the ε-closure witness. -/
def exNfaC5 : NFA :=
  ⟨2, fun s sym => if s = 0 ∧ sym = Symbol.Epsilon then {1} else ∅, 0, {1}, [], ""⟩

/-- Concrete one-state NFA, for the subset-construction witness. -/
def exNfaC6 : NFA :=
  ⟨1, fun _ _ => ∅, 0, {0}, ['a'], ""⟩

/-- Concrete two-state DFA with one acceptor, for the minimization
witnesses. -/
def exDfaC7 : DFA :=
  ⟨[⟨0, fun _ => none⟩, ⟨1, fun _ => none⟩], 0, [true, false], [], ""⟩

/-- Invariant of the subset-construction loop state: the acceptor
bitset tracks the state list, and every registered (NFA-set, DFA-id)
pair has a valid id whose acceptor bit is set iff the NFA-set meets
the acceptors. -/
def QInv (nfa : NFA) (d : DFA) (ql : List (Finset Nat × Nat)) : Prop :=
  d.accept_states.length = d.states.length ∧
  ∀ e ∈ ql, e.2 < d.states.length ∧
    (d.acceptBit e.2 = true ↔ (e.1 ∩ nfa.acceptors).Nonempty)

/-!  Theorems.  -/

@[simp]
theorem parseFuns_zero (regex : List Char) : parseFuns regex 0 = PFuns.empty :=
  rfl

@[simp]
theorem parseFuns_succ (regex : List Char) (fuel : Nat) :
    parseFuns regex (fuel + 1) = parseLayer regex (parseFuns regex fuel) :=
  rfl

theorem parse_base_zero (regex : List Char) (start : Nat) :
    parse_base regex 0 start = .crash :=
  rfl

theorem parse_factor_zero (regex : List Char) (start : Nat) :
    parse_factor regex 0 start = .crash :=
  rfl

theorem parse_term_loop_zero (regex : List Char) (prev : Term) (start : Nat) :
    parse_term_loop regex 0 prev start = .crash :=
  rfl

theorem parse_term_zero (regex : List Char) (start : Nat) :
    parse_term regex 0 start = .crash :=
  rfl

theorem parse_regex_zero (regex : List Char) (start : Nat) :
    parse_regex regex 0 start = .crash :=
  rfl

theorem parse_factor_succ (regex : List Char) (fuel start : Nat) :
    parse_factor regex (fuel + 1) start =
      match parse_base regex fuel start with
      | .ok (b, ns) =>
        match regex.get? ns with
        | some '*' => .ok (.SimpleFactor b (some .Star), ns + 1)
        | some '?' => .ok (.SimpleFactor b (some .Question), ns + 1)
        | some '+' => .ok (.SimpleFactor b (some .Plus), ns + 1)
        | _ => .ok (.SimpleFactor b none, ns)
      | .err e => .err e
      | .crash => .crash :=
  rfl

theorem parse_term_loop_succ (regex : List Char) (fuel : Nat) (prev : Term) (start : Nat) :
    parse_term_loop regex (fuel + 1) prev start =
      match regex.get? start with
      | none => .ok (prev, start)
      | some nchar =>
        if nchar = '|' || nchar = ')' then .ok (prev, start)
        else
          match parse_factor regex fuel start with
          | .ok (f, ns) => parse_term_loop regex fuel (.ConcatTerm f prev) ns
          | .err e => .err e
          | .crash => .crash :=
  rfl

theorem parse_term_succ (regex : List Char) (fuel start : Nat) :
    parse_term regex (fuel + 1) start =
      match parse_factor regex fuel start with
      | .ok (f, ns) => parse_term_loop regex fuel (.SimpleTerm f) ns
      | .err e => .err e
      | .crash => .crash :=
  rfl

theorem concatOnto_append (t : Term) (fs : List Factor) (g : Factor) :
    concatOnto t (fs ++ [g]) = .ConcatTerm g (concatOnto t fs) := by
  simp [concatOnto]

theorem concatFold_append (f : Factor) (fs : List Factor) (g : Factor) :
    concatFold f (fs ++ [g]) = .ConcatTerm g (concatFold f fs) :=
  concatOnto_append _ _ _

theorem parse_term_loop_factors (regex : List Char) :
    ∀ fuel (prev : Term) (start : Nat),
      parse_term_loop regex fuel prev start =
        match parse_factors_loop regex fuel start with
        | .ok (fs, j) => .ok (concatOnto prev fs, j)
        | .err e => .err e
        | .crash => .crash := by
  intro fuel
  induction fuel with
  | zero => intro prev start; rfl
  | succ fuel ih =>
    intro prev start
    rw [parse_term_loop_succ]
    show _ = match parse_factors_loop regex (fuel + 1) start with
      | .ok (fs, j) => .ok (concatOnto prev fs, j)
      | .err e => .err e
      | .crash => .crash
    rw [parse_factors_loop]
    cases hg : regex.get? start with
    | none => simp [concatOnto]
    | some nchar =>
      by_cases hc : (nchar = '|' || nchar = ')') = true
      · simp [hc, concatOnto]
      · simp only [hc]
        rw [if_neg (by simp_all), if_neg (by simp_all)]
        cases hf : parse_factor regex fuel start with
        | ok p =>
          obtain ⟨f, ns⟩ := p
          dsimp only
          rw [ih]
          cases hl : parse_factors_loop regex fuel ns with
          | ok q =>
            obtain ⟨fs, j⟩ := q
            simp [concatOnto]
          | err e => rfl
          | crash => rfl
        | err e => rfl
        | crash => rfl

theorem parse_term_factors (regex : List Char) (fuel start : Nat) :
    parse_term regex fuel start =
      match parse_factors regex fuel start with
      | .ok (f :: fs, j) => .ok (concatFold f fs, j)
      | .ok ([], _) => .crash
      | .err e => .err e
      | .crash => .crash := by
  cases fuel with
  | zero => rfl
  | succ fuel =>
    rw [parse_term_succ, parse_factors]
    cases hf : parse_factor regex fuel start with
    | ok p =>
      obtain ⟨f, ns⟩ := p
      dsimp only
      rw [parse_term_loop_factors]
      cases hl : parse_factors_loop regex fuel ns with
      | ok q => obtain ⟨fs, j⟩ := q; simp [concatFold]
      | err e => rfl
      | crash => rfl
    | err e => rfl
    | crash => rfl

theorem nvalid_true (c : Char) :
    nchar_is_valid c = true ↔ ¬(c = '*' ∨ c = '|' ∨ c = '?' ∨ c = ')' ∨ c = ']') := by
  simp [nchar_is_valid]
  tauto

/-- C2: the claim states that build_syntax_tree / parse_regex is total on
every input string, returning a syntax tree or a structured RegExError
and never panicking.  The code refutes it: on the one-character pattern
consisting of a single backslash, the bracket pre-pass accepts the
input, and parse_base then `unwrap`s `chars().nth(start + 1)`, which is
`None`, so the program panics (modelled by `crash`) instead of
returning a structured error. -/
theorem c2_lone_backslash_panics :
    build_syntax_tree ['\\'] = .crash ∧
    parse_regex ['\\'] (parserFuel ['\\']) 0 = .crash :=
  ⟨rfl, rfl⟩

/-- C3: a pattern of two or more concatenated factors parses to a Term
whose outermost ConcatTerm carries the last factor, with the boxed tail
the nesting of the prefix factors; in particular "a*b" parses to
concat(b, star(a)) with the star bound to 'a' only.  Stated via the
factor-list view parse_factors of the parse_term loop: whenever
parse_term succeeds its value is the left fold of the factor list, and
for a factor list with last element `g` the result is ConcatTerm g
applied to the fold of the prefix. -/
theorem c3_concat_nesting :
    (∀ regex fuel start t j, parse_term regex fuel start = .ok (t, j) →
      ∃ f fs, parse_factors regex fuel start = .ok (f :: fs, j) ∧ t = concatFold f fs) ∧
    (∀ regex fuel start f fs g j,
      parse_factors regex fuel start = .ok (f :: (fs ++ [g]), j) →
      parse_term regex fuel start = .ok (.ConcatTerm g (concatFold f fs), j)) ∧
    build_syntax_tree ['a', '*', 'b'] =
      .ok (.SimpleRegex (.ConcatTerm (.SimpleFactor (.Character 'b') none)
        (.SimpleTerm (.SimpleFactor (.Character 'a') (some .Star))))) := by
  refine ⟨?_, ?_, rfl⟩
  · intro regex fuel start t j h
    rw [parse_term_factors] at h
    cases hp : parse_factors regex fuel start with
    | ok q =>
      obtain ⟨l, j'⟩ := q
      rw [hp] at h
      cases l with
      | nil => simp at h
      | cons f fs =>
        simp only [PRes.ok.injEq, Prod.mk.injEq] at h
        obtain ⟨h1, h2⟩ := h
        subst h2
        exact ⟨f, fs, rfl, h1.symm⟩
    | err e => rw [hp] at h; simp at h
    | crash => rw [hp] at h; simp at h
  · intro regex fuel start f fs g j h
    rw [parse_term_factors, h]
    dsimp only
    rw [concatFold_append]

/-- Witness for C3 at the concrete pattern "ab": parse_factors yields
the two factors and index 2, and the theorem gives the nested term. -/
theorem c3_concat_nesting_witness :
    parse_term ['a', 'b'] 20 0 =
      .ok (.ConcatTerm (.SimpleFactor (.Character 'b') none)
        (.SimpleTerm (.SimpleFactor (.Character 'a') none)), 2) :=
  c3_concat_nesting.2.1 ['a', 'b'] 20 0 (.SimpleFactor (.Character 'a') none) []
    (.SimpleFactor (.Character 'b') none) 2 rfl

/-- C4: the claim states that whenever parse_regex(pattern, 0) succeeds
the returned index equals the pattern length.  The code refutes it: on
the balanced pattern "[A-]([])" (length 8) the character-class range
A-] swallows the closing bracket, the class then absorbs '(' and '[' as
ordinary members and stops at the ']' of index 6, and parsing succeeds
at index 7 with the trailing ')' silently ignored.  On "(([A-])[x])"
(length 11) the same effect makes the inner group consume the final
')' so parsing succeeds at index 12, past the end of the input. -/
theorem c4_trailing_text_ignored :
    parseIndex (parse_regex ['[', 'A', '-', ']', '(', '[', ']', ')']
        (parserFuel ['[', 'A', '-', ']', '(', '[', ']', ')']) 0) = some 7 ∧
    ([ '[', 'A', '-', ']', '(', '[', ']', ')'] : List Char).length = 8 ∧
    parseIndex (parse_regex ['(', '(', '[', 'A', '-', ']', ')', '[', 'x', ']', ')']
        (parserFuel ['(', '(', '[', 'A', '-', ']', ')', '[', 'x', ']', ')']) 0) = some 12 ∧
    ([ '(', '(', '[', 'A', '-', ']', ')', '[', 'x', ']', ')'] : List Char).length = 11 :=
  ⟨rfl, rfl, rfl, rfl⟩

/-- Counterexample for C8: a bare '+' in base position IS accepted as a
literal by the code — parse_base returns Character('+'), and the
pattern "+" parses to that literal — contradicting the claim that '+'
is rejected as a base-position literal. -/
theorem c8_plus_literal_counterexample :
    parse_base ['+'] (parserFuel ['+']) 0 = .ok (.Character '+', 1) ∧
    build_syntax_tree ['+'] =
      .ok (.SimpleRegex (.SimpleTerm (.SimpleFactor (.Character '+') none))) :=
  ⟨rfl, rfl⟩

/-- C8 (amended): nchar_is_valid rejects exactly `* | ? ) ]`, and a
character in base position is accepted as a literal iff it is none of
`( [ \` (diverted to the group, class and escape branches) and none of
`* | ? ) ]`; in particular a bare '+' is accepted as the literal
Character('+'). -/
theorem c8_base_literal_amended :
    (∀ c : Char, nchar_is_valid c = false ↔
      (c = '*' ∨ c = '|' ∨ c = '?' ∨ c = ')' ∨ c = ']')) ∧
    (∀ (regex : List Char) (fuel start : Nat) (c : Char) (ns : Nat),
      parse_base regex (fuel + 1) start = .ok (.Character c, ns) ↔
        (regex.get? start = some c ∧ ns = start + 1 ∧
          c ≠ '(' ∧ c ≠ '[' ∧ c ≠ '\\' ∧ c ≠ '*' ∧ c ≠ '|' ∧ c ≠ '?' ∧ c ≠ ')' ∧ c ≠ ']')) := by
  constructor
  · intro c
    simp [nchar_is_valid]
    tauto
  · intro regex fuel start c ns
    show (parseLayer regex (parseFuns regex fuel)).base start = _ ↔ _
    rw [parseLayer]
    dsimp only
    cases hg : regex.get? start with
    | none => simp
    | some nchar =>
      dsimp only
      by_cases h1 : nchar = '('
      · subst h1
        simp only [if_pos rfl]
        cases (parseFuns regex fuel).rx (start + 1) with
        | ok p => obtain ⟨r, n⟩ := p; simp; rintro rfl; simp
        | err e => simp; rintro rfl; simp
        | crash => simp; rintro rfl; simp
      · rw [if_neg h1]
        by_cases h2 : nchar = '['
        · subst h2
          rw [if_pos rfl]
          cases parse_char_class regex (regex.length + 1) ∅ (start + 1) with
          | ok p => obtain ⟨cs, n⟩ := p; simp; rintro rfl; simp
          | err e => simp; rintro rfl; simp
          | crash => simp; rintro rfl; simp
        · rw [if_neg h2]
          by_cases h3 : nchar = '\\'
          · subst h3
            rw [if_pos rfl]
            cases regex.get? (start + 1) with
            | none => simp; rintro rfl; simp
            | some e1 =>
              dsimp only
              by_cases he : is_escape_char e1 = true
              · rw [if_pos he]; simp; rintro rfl; simp
              · rw [if_neg he]; simp; rintro rfl; simp
          · rw [if_neg h3]
            by_cases h4 : nchar_is_valid nchar = true
            · rw [if_pos h4]
              constructor
              · rintro h
                simp only [PRes.ok.injEq, Prod.mk.injEq, Base.Character.injEq] at h
                obtain ⟨rfl, rfl⟩ := h
                have hv := (nvalid_true nchar).mp h4
                push_neg at hv
                exact ⟨rfl, rfl, h1, h2, h3, hv.1, hv.2.1, hv.2.2.1, hv.2.2.2.1, hv.2.2.2.2⟩
              · rintro ⟨hgc, rfl, _⟩
                injection hgc with hgc
                subst hgc
                rfl
            · rw [if_neg h4]
              constructor
              · intro h
                exact absurd h (by simp)
              · rintro ⟨hgc, rfl, hcon⟩
                injection hgc with hgc
                subst hgc
                exact absurd ((nvalid_true _).mpr (by tauto)) h4

/-- Witness for C8 (amended) at the literal 'a'. -/
theorem c8_base_literal_amended_witness :
    parse_base ['a'] 1 0 = .ok (.Character 'a', 1) :=
  (c8_base_literal_amended.2 ['a'] 0 0 'a' 1).mpr (by decide)

/-- C9: parse_microsyntax_list preserves the order of its (pattern,
category) input pairs, returning the (pattern, tree, category) triples
in that order when every pattern parses, and returns the error of the
earliest failing pattern (and hence no partial list) otherwise. -/
theorem c9_microsyntax_order :
    (∀ (l : List (List Char × List Char)) res, parse_microsyntax_list l = .ok res →
      res.map (fun q => (q.1, q.2.2)) = l ∧
      ∀ q ∈ res, build_syntax_tree q.1 = .ok q.2.1) ∧
    (∀ (l1 : List (List Char × List Char)) (p cat : List Char) (e : RegExError)
        (l2 : List (List Char × List Char)),
      build_syntax_tree p = .err e →
      (∀ q ∈ l1, ∃ t, build_syntax_tree q.1 = .ok t) →
      parse_microsyntax_list (l1 ++ (p, cat) :: l2) = .err e) := by
  constructor
  · intro l
    induction l with
    | nil =>
      intro res h
      simp only [parse_microsyntax_list, PRes.ok.injEq] at h
      subst h
      simp
    | cons hd rest ih =>
      intro res h
      obtain ⟨r, cat⟩ := hd
      rw [parse_microsyntax_list] at h
      cases hb : build_syntax_tree r with
      | ok t =>
        rw [hb] at h
        dsimp only at h
        cases hr : parse_microsyntax_list rest with
        | ok l2 =>
          rw [hr] at h
          simp only [PRes.ok.injEq] at h
          subst h
          obtain ⟨ih1, ih2⟩ := ih l2 hr
          refine ⟨by simp [ih1], ?_⟩
          intro q hq
          rcases List.mem_cons.mp hq with hq | hq
          · subst hq; exact hb
          · exact ih2 q hq
        | err ee => rw [hr] at h; exact absurd h (by simp)
        | crash => rw [hr] at h; exact absurd h (by simp)
      | err ee => rw [hb] at h; exact absurd h (by simp)
      | crash => rw [hb] at h; exact absurd h (by simp)
  · intro l1
    induction l1 with
    | nil =>
      intro p cat e l2 hp _
      simp only [List.nil_append, parse_microsyntax_list]
      rw [hp]
    | cons hd rest ih =>
      intro p cat e l2 hp hall
      obtain ⟨r, rcat⟩ := hd
      obtain ⟨t, ht⟩ := hall (r, rcat) (by simp)
      simp only [List.cons_append, parse_microsyntax_list]
      rw [ht]
      dsimp only
      simp only [List.append_eq]
      rw [ih p cat e l2 hp (fun q hq => hall q (by simp [hq]))]

/-- Witness for C9: a list whose single pattern is empty fails with
InvalidRegexError on that pattern. -/
theorem c9_microsyntax_order_witness :
    parse_microsyntax_list [([], [])] = .err (.InvalidRegexError []) :=
  c9_microsyntax_order.2 [] [] [] (.InvalidRegexError []) [] rfl (by simp)

theorem mem_ascList (B : Finset Nat) (x : Nat) : x ∈ ascList B ↔ x ∈ B := by
  simp only [ascList, List.mem_filter, List.mem_range, decide_eq_true_eq, Nat.lt_succ_iff]
  constructor
  · exact fun h => h.2
  · intro hx
    exact ⟨show id x ≤ B.sup id from Finset.le_sup hx, hx⟩

theorem ascList_nodup (B : Finset Nat) : (ascList B).Nodup :=
  (List.nodup_range _).filter _

theorem length_ascList (B : Finset Nat) : (ascList B).length = B.card := by
  have h1 : (ascList B).toFinset = B := by
    ext x
    rw [List.mem_toFinset, mem_ascList]
  calc (ascList B).length = (ascList B).toFinset.card :=
        (List.toFinset_card_of_nodup (ascList_nodup B)).symm
    _ = B.card := by rw [h1]

/-- Any superset of the queue and accumulator that is closed under
the ε-transition relation contains everything the closure loop
produces. -/
theorem closure_loop_sound (nfa : NFA) (S : Finset Nat)
    (hS : ∀ x ∈ S, ∀ t ∈ nfa.transitions x Symbol.Epsilon, t ∈ S) :
    ∀ fuel (queue : List Nat) (visited clo : Finset Nat),
      (∀ x ∈ queue, x ∈ S) → (∀ x ∈ clo, x ∈ S) →
      ∀ x ∈ get_epsilon_closure_loop nfa fuel queue visited clo, x ∈ S := by
  intro fuel
  induction fuel with
  | zero => intro queue visited clo _ hclo x hx; exact hclo x hx
  | succ fuel ih =>
    intro queue visited clo hq hclo x hx
    cases queue with
    | nil => exact hclo x hx
    | cons s rest =>
      rw [get_epsilon_closure_loop] at hx
      refine ih _ _ _ ?_ ?_ x hx
      · intro y hy
        rcases List.mem_append.mp hy with hy | hy
        · exact hq y (List.mem_cons_of_mem _ hy)
        · have : y ∈ nfa.transitions s Symbol.Epsilon \ visited := (mem_ascList _ _).mp hy
          exact hS s (hq s (List.mem_cons_self _ _)) y (Finset.mem_sdiff.mp this).1
      · intro y hy
        rcases Finset.mem_insert.mp hy with hy | hy
        · subst hy; exact hq y (List.mem_cons_self _ _)
        · exact hclo y hy

/-- With enough fuel, the closure loop output contains its accumulator
and every queued state. -/
theorem closure_loop_mem (nfa : NFA)
    (hwf : ∀ s < nfa.numStates, ∀ sym : Symbol, ∀ t ∈ nfa.transitions s sym, t < nfa.numStates) :
    ∀ fuel (queue : List Nat) (visited clo : Finset Nat),
      (∀ x ∈ queue, x < nfa.numStates) →
      visited ⊆ Finset.range nfa.numStates →
      queue.length + (nfa.numStates - visited.card) < fuel →
      (∀ x ∈ clo, x ∈ get_epsilon_closure_loop nfa fuel queue visited clo) ∧
      (∀ x ∈ queue, x ∈ get_epsilon_closure_loop nfa fuel queue visited clo) := by
  intro fuel
  induction fuel with
  | zero => intro queue visited clo _ _ hfuel; omega
  | succ fuel ih =>
    intro queue visited clo hq hv hfuel
    cases queue with
    | nil =>
      constructor
      · intro x hx; exact hx
      · intro x hx; cases hx
    | cons s rest =>
      rw [get_epsilon_closure_loop]
      have hsn : s < nfa.numStates := hq s (List.mem_cons_self _ _)
      have hfresh_sub : nfa.transitions s Symbol.Epsilon \ visited ⊆ Finset.range nfa.numStates := by
        intro t ht
        exact Finset.mem_range.mpr (hwf s hsn Symbol.Epsilon t (Finset.mem_sdiff.mp ht).1)
      have hdisj : Disjoint visited (nfa.transitions s Symbol.Epsilon \ visited) :=
        Finset.disjoint_sdiff
      have hcard : (visited ∪ (nfa.transitions s Symbol.Epsilon \ visited)).card =
          visited.card + (nfa.transitions s Symbol.Epsilon \ visited).card :=
        Finset.card_union_of_disjoint hdisj
      have hv' : visited ∪ (nfa.transitions s Symbol.Epsilon \ visited) ⊆
          Finset.range nfa.numStates :=
        Finset.union_subset hv hfresh_sub
      have hcard_le : (visited ∪ (nfa.transitions s Symbol.Epsilon \ visited)).card ≤
          nfa.numStates := by
        have := Finset.card_le_card hv'
        simpa using this
      have hq' : ∀ x ∈ rest ++ ascList (nfa.transitions s Symbol.Epsilon \ visited),
          x < nfa.numStates := by
        intro x hx
        rcases List.mem_append.mp hx with hx | hx
        · exact hq x (List.mem_cons_of_mem _ hx)
        · exact Finset.mem_range.mp (hfresh_sub ((mem_ascList _ _).mp hx))
      have hlen : (rest ++ ascList (nfa.transitions s Symbol.Epsilon \ visited)).length =
          rest.length + (nfa.transitions s Symbol.Epsilon \ visited).card := by
        rw [List.length_append, length_ascList]
      have hfuel' : (rest ++ ascList (nfa.transitions s Symbol.Epsilon \ visited)).length +
          (nfa.numStates - (visited ∪ (nfa.transitions s Symbol.Epsilon \ visited)).card) <
          fuel := by
        simp only [List.length_cons] at hfuel
        omega
      obtain ⟨ha, hb⟩ := ih _ _ (insert s clo) hq' hv' hfuel'
      refine ⟨?_, ?_⟩
      · intro x hx
        exact ha x (Finset.mem_insert_of_mem hx)
      · intro x hx
        rcases List.mem_cons.mp hx with hx | hx
        · subst hx
          exact ha x (Finset.mem_insert_self _ _)
        · exact hb x (List.mem_append_left _ hx)

/-- With enough fuel and the loop invariants (everything visited is
accumulated or queued; accumulated states have their ε-targets
visited), the closure loop output is closed under ε-transitions. -/
theorem closure_loop_closed (nfa : NFA)
    (hwf : ∀ s < nfa.numStates, ∀ sym : Symbol, ∀ t ∈ nfa.transitions s sym, t < nfa.numStates) :
    ∀ fuel (queue : List Nat) (visited clo : Finset Nat),
      (∀ x ∈ queue, x < nfa.numStates) →
      visited ⊆ Finset.range nfa.numStates →
      queue.length + (nfa.numStates - visited.card) < fuel →
      (∀ x ∈ visited, x ∈ clo ∨ x ∈ queue) →
      (∀ x ∈ clo, ∀ t ∈ nfa.transitions x Symbol.Epsilon, t ∈ visited) →
      ∀ x ∈ get_epsilon_closure_loop nfa fuel queue visited clo,
        ∀ t ∈ nfa.transitions x Symbol.Epsilon,
          t ∈ get_epsilon_closure_loop nfa fuel queue visited clo := by
  intro fuel
  induction fuel with
  | zero => intro queue visited clo _ _ hfuel; omega
  | succ fuel ih =>
    intro queue visited clo hq hv hfuel hvc hcc
    cases queue with
    | nil =>
      intro x hx t ht
      rcases hvc t (hcc x hx t ht) with h | h
      · exact h
      · cases h
    | cons s rest =>
      rw [get_epsilon_closure_loop]
      have hsn : s < nfa.numStates := hq s (List.mem_cons_self _ _)
      have hfresh_sub : nfa.transitions s Symbol.Epsilon \ visited ⊆ Finset.range nfa.numStates := by
        intro t ht
        exact Finset.mem_range.mpr (hwf s hsn Symbol.Epsilon t (Finset.mem_sdiff.mp ht).1)
      have hdisj : Disjoint visited (nfa.transitions s Symbol.Epsilon \ visited) :=
        Finset.disjoint_sdiff
      have hq' : ∀ x ∈ rest ++ ascList (nfa.transitions s Symbol.Epsilon \ visited),
          x < nfa.numStates := by
        intro x hx
        rcases List.mem_append.mp hx with hx | hx
        · exact hq x (List.mem_cons_of_mem _ hx)
        · exact Finset.mem_range.mp (hfresh_sub ((mem_ascList _ _).mp hx))
      have hv' : visited ∪ (nfa.transitions s Symbol.Epsilon \ visited) ⊆
          Finset.range nfa.numStates :=
        Finset.union_subset hv hfresh_sub
      have hfuel' : (rest ++ ascList (nfa.transitions s Symbol.Epsilon \ visited)).length +
          (nfa.numStates - (visited ∪ (nfa.transitions s Symbol.Epsilon \ visited)).card) <
          fuel := by
        rw [List.length_append, length_ascList, Finset.card_union_of_disjoint hdisj]
        have hcard_le : (visited ∪ (nfa.transitions s Symbol.Epsilon \ visited)).card ≤
            nfa.numStates := by
          have := Finset.card_le_card hv'
          simpa using this
        rw [Finset.card_union_of_disjoint hdisj] at hcard_le
        simp only [List.length_cons] at hfuel
        omega
      apply ih _ _ (insert s clo) hq' hv' hfuel'
      · intro x hx
        rcases Finset.mem_union.mp hx with hx | hx
        · rcases hvc x hx with h | h
          · exact Or.inl (Finset.mem_insert_of_mem h)
          · rcases List.mem_cons.mp h with h | h
            · exact Or.inl (h ▸ Finset.mem_insert_self _ _)
            · exact Or.inr (List.mem_append_left _ h)
        · exact Or.inr (List.mem_append_right _ ((mem_ascList _ _).mpr hx))
      · intro x hx t ht
        rcases Finset.mem_insert.mp hx with hx | hx
        · subst hx
          by_cases htv : t ∈ visited
          · exact Finset.mem_union_left _ htv
          · exact Finset.mem_union_right _ (Finset.mem_sdiff.mpr ⟨ht, htv⟩)
        · exact Finset.mem_union_left _ (hcc x hx t ht)

/-- C5: for a well-formed NFA and any set Q of its states,
get_epsilon_closure returns the smallest superset of Q closed under
ε-transitions: Q is contained in the result, every ε-target of a
member of the result is in the result, and the result is contained in
every ε-closed superset of Q. -/
theorem c5_epsilon_closure_least (nfa : NFA) (hwf : nfa.wf) (Q : Finset Nat)
    (hQ : ∀ x ∈ Q, x < nfa.numStates) :
    (∀ x ∈ Q, x ∈ get_epsilon_closure nfa Q) ∧
    (∀ x ∈ get_epsilon_closure nfa Q, ∀ t ∈ nfa.transitions x Symbol.Epsilon,
      t ∈ get_epsilon_closure nfa Q) ∧
    (∀ S : Finset Nat, (∀ x ∈ Q, x ∈ S) →
      (∀ x ∈ S, ∀ t ∈ nfa.transitions x Symbol.Epsilon, t ∈ S) →
      ∀ x ∈ get_epsilon_closure nfa Q, x ∈ S) := by
  have hq0 : ∀ x ∈ ascList Q, x < nfa.numStates := by
    intro x hx; exact hQ x ((mem_ascList _ _).mp hx)
  have hv0 : (∅ : Finset Nat) ⊆ Finset.range nfa.numStates := Finset.empty_subset _
  have hfuel0 : (ascList Q).length + (nfa.numStates - (∅ : Finset Nat).card) <
      Q.card + nfa.numStates + 1 := by
    rw [length_ascList]
    simp
  refine ⟨?_, ?_, ?_⟩
  · intro x hx
    exact (closure_loop_mem nfa hwf.1 _ _ _ _ hq0 hv0 hfuel0).2 x ((mem_ascList _ _).mpr hx)
  · exact closure_loop_closed nfa hwf.1 _ _ _ _ hq0 hv0 hfuel0
      (by intro x hx; cases hx) (by intro x hx; cases hx)
  · intro S hQS hSclosed
    exact closure_loop_sound nfa S hSclosed _ _ _ _
      (fun x hx => hQS x ((mem_ascList _ _).mp hx)) (fun x hx => absurd hx (by simp))

/-- Well-formedness of the closure witness NFA. -/
theorem exNfaC5_wf : exNfaC5.wf := by
  refine ⟨?_, by decide, by decide⟩
  intro s hs sym t ht
  simp only [exNfaC5] at ht
  by_cases h : s = 0 ∧ sym = Symbol.Epsilon
  · rw [if_pos h] at ht
    simp only [Finset.mem_singleton] at ht
    subst ht
    decide
  · rw [if_neg h] at ht
    exact absurd ht (by simp)

/-- Witness for C5 at the two-state NFA with one ε-transition and
Q = {0}. -/
theorem c5_epsilon_closure_least_witness :
    (∀ x ∈ ({0} : Finset Nat), x ∈ get_epsilon_closure exNfaC5 {0}) ∧
    (∀ x ∈ get_epsilon_closure exNfaC5 {0}, ∀ t ∈ exNfaC5.transitions x Symbol.Epsilon,
      t ∈ get_epsilon_closure exNfaC5 {0}) :=
  ⟨(c5_epsilon_closure_least exNfaC5 exNfaC5_wf {0} (by decide)).1,
   (c5_epsilon_closure_least exNfaC5 exNfaC5_wf {0} (by decide)).2.1⟩

theorem getD_append_false (ac : List Bool) (i : Nat) :
    (ac ++ [false]).getD i false = ac.getD i false := by
  induction ac generalizing i with
  | nil => cases i <;> simp [List.getD]
  | cons b ac ih =>
    cases i with
    | zero => rfl
    | succ n => simpa [List.getD] using ih n

theorem getD_set_true (ac : List Bool) (i : Nat) (h : i < ac.length) :
    (ac.set i true).getD i false = true := by
  induction ac generalizing i with
  | nil => simp at h
  | cons b ac ih =>
    cases i with
    | zero => rfl
    | succ n =>
      simp only [List.length_cons] at h
      simpa [List.getD] using ih n (by omega)

theorem getD_set_other (ac : List Bool) (i j : Nat) (h : i ≠ j) :
    (ac.set i true).getD j false = ac.getD j false := by
  induction ac generalizing i j with
  | nil => rfl
  | cons b ac ih =>
    cases i with
    | zero =>
      cases j with
      | zero => exact absurd rfl h
      | succ m => rfl
    | succ n =>
      cases j with
      | zero => rfl
      | succ m => simpa [List.getD] using ih n m (by omega)

theorem add_state_lengths (d : DFA) :
    (d.add_state).1.states.length = d.states.length + 1 ∧
    (d.add_state).1.accept_states.length = d.accept_states.length + 1 ∧
    (d.add_state).2 = d.states.length ∧
    (d.add_state).1.start_state = d.start_state ∧
    (d.add_state).1.accept_states = d.accept_states ++ [false] := by
  obtain ⟨st, ss, ac, al, rg⟩ := d
  simp [DFA.add_state]

theorem set_accept_fields (d : DFA) (i : Nat) :
    (d.set_accept_state i).states = d.states ∧
    (d.set_accept_state i).accept_states = d.accept_states.set i true ∧
    (d.set_accept_state i).start_state = d.start_state := by
  obtain ⟨st, ss, ac, al, rg⟩ := d
  simp [DFA.set_accept_state]

theorem add_transition_fields (d : DFA) (src : Nat) (sym : Symbol) (tgt : Nat) :
    (d.add_transition src sym tgt).states.length = d.states.length ∧
    (d.add_transition src sym tgt).accept_states = d.accept_states ∧
    (d.add_transition src sym tgt).start_state = d.start_state := by
  obtain ⟨st, ss, ac, al, rg⟩ := d
  simp [DFA.add_transition]

theorem acceptBit_add_transition (d : DFA) (src : Nat) (sym : Symbol) (tgt j : Nat) :
    (d.add_transition src sym tgt).acceptBit j = d.acceptBit j := by
  unfold DFA.acceptBit
  rw [(add_transition_fields d src sym tgt).2.1]

theorem acceptBit_add_state (d : DFA) (j : Nat) :
    (d.add_state).1.acceptBit j = d.acceptBit j := by
  unfold DFA.acceptBit
  rw [(add_state_lengths d).2.2.2.2, getD_append_false]

theorem acceptBit_set_self (d : DFA) (i : Nat) (h : i < d.accept_states.length) :
    (d.set_accept_state i).acceptBit i = true := by
  unfold DFA.acceptBit
  rw [(set_accept_fields d i).2.1, getD_set_true _ _ h]

theorem acceptBit_set_other (d : DFA) (i j : Nat) (h : i ≠ j) :
    (d.set_accept_state i).acceptBit j = d.acceptBit j := by
  unfold DFA.acceptBit
  rw [(set_accept_fields d i).2.1, getD_set_other _ _ _ h]

/-- One character step of the work-list loop preserves the
acceptance-tracking invariant, only extends the registered mapping,
and keeps the start state. -/
theorem dfa_char_step_inv (nfa : NFA) (q : Finset Nat)
    (acc : DFA × List (Finset Nat × Nat) × List (Finset Nat)) (c : Char)
    (h : QInv nfa acc.1 acc.2.1) :
    QInv nfa (dfa_char_step nfa q acc c).1 (dfa_char_step nfa q acc c).2.1 ∧
    (∀ e ∈ acc.2.1, e ∈ (dfa_char_step nfa q acc c).2.1) ∧
    (dfa_char_step nfa q acc c).1.start_state = acc.1.start_state := by
  obtain ⟨d, ql, wl⟩ := acc
  obtain ⟨hlen, hq⟩ := h
  dsimp only at hlen hq ⊢
  rw [dfa_char_step]
  by_cases he : delta nfa q c = ∅
  · rw [if_pos he]
    exact ⟨⟨hlen, hq⟩, fun e he' => he', rfl⟩
  · rw [if_neg he]
    dsimp only
    cases hl : lookupQ ql (get_epsilon_closure nfa (delta nfa q c)) with
    | some i =>
      dsimp only
      refine ⟨⟨?_, ?_⟩, fun e he' => he', (add_transition_fields ..).2.2⟩
      · rw [(add_transition_fields ..).1, (add_transition_fields ..).2.1]
        exact hlen
      · intro e hel
        obtain ⟨h1, h2⟩ := hq e hel
        rw [(add_transition_fields ..).1, acceptBit_add_transition]
        exact ⟨h1, h2⟩
    | none =>
      dsimp only
      by_cases hne : (get_epsilon_closure nfa (delta nfa q c) ∩ nfa.acceptors).Nonempty
      · rw [if_pos hne]
        refine ⟨⟨?_, ?_⟩, ?_, ?_⟩
        · rw [(add_transition_fields ..).1, (add_transition_fields ..).2.1,
            (set_accept_fields ..).1, (set_accept_fields ..).2.1, List.length_set,
            (add_state_lengths d).1, (add_state_lengths d).2.1]
          omega
        · intro e hel
          rcases List.mem_append.mp hel with hel | hel
          · obtain ⟨h1, h2⟩ := hq e hel
            have hne2 : (d.add_state).2 ≠ e.2 := by
              rw [(add_state_lengths d).2.2.1]; omega
            rw [(add_transition_fields ..).1, (set_accept_fields ..).1,
              (add_state_lengths d).1, acceptBit_add_transition,
              acceptBit_set_other _ _ _ hne2, acceptBit_add_state]
            exact ⟨by omega, h2⟩
          · simp only [List.mem_singleton] at hel
            subst hel
            dsimp only
            constructor
            · rw [(add_transition_fields ..).1, (set_accept_fields ..).1,
                (add_state_lengths d).1, (add_state_lengths d).2.2.1]
              omega
            · rw [acceptBit_add_transition, acceptBit_set_self]
              · simp [hne]
              · rw [(add_state_lengths d).2.1, (add_state_lengths d).2.2.1]
                omega
        · intro e hel
          exact List.mem_append_left _ hel
        · rw [(add_transition_fields ..).2.2, (set_accept_fields ..).2.2,
            (add_state_lengths d).2.2.2.1]
      · rw [if_neg hne]
        refine ⟨⟨?_, ?_⟩, ?_, ?_⟩
        · rw [(add_transition_fields ..).1, (add_transition_fields ..).2.1,
            (add_state_lengths d).1, (add_state_lengths d).2.1]
          omega
        · intro e hel
          rcases List.mem_append.mp hel with hel | hel
          · obtain ⟨h1, h2⟩ := hq e hel
            rw [(add_transition_fields ..).1, (add_state_lengths d).1,
              acceptBit_add_transition, acceptBit_add_state]
            exact ⟨by omega, h2⟩
          · simp only [List.mem_singleton] at hel
            subst hel
            dsimp only
            constructor
            · rw [(add_transition_fields ..).1, (add_state_lengths d).1,
                (add_state_lengths d).2.2.1]
              omega
            · rw [acceptBit_add_transition]
              have hbit : (d.add_state).1.acceptBit (d.add_state).2 = false := by
                unfold DFA.acceptBit
                rw [(add_state_lengths d).2.2.2.2, (add_state_lengths d).2.2.1]
                rw [List.getD_eq_getElem?_getD]
                rw [List.getElem?_append_right (by omega)]
                simp [hlen]
              rw [hbit]
              simp [hne]
        · intro e hel
          exact List.mem_append_left _ hel
        · rw [(add_transition_fields ..).2.2, (add_state_lengths d).2.2.2.1]

theorem foldl_char_step_inv (nfa : NFA) (q : Finset Nat) (cs : List Char) :
    ∀ acc : DFA × List (Finset Nat × Nat) × List (Finset Nat), QInv nfa acc.1 acc.2.1 →
      QInv nfa (cs.foldl (dfa_char_step nfa q) acc).1 (cs.foldl (dfa_char_step nfa q) acc).2.1 ∧
      (∀ e ∈ acc.2.1, e ∈ (cs.foldl (dfa_char_step nfa q) acc).2.1) ∧
      (cs.foldl (dfa_char_step nfa q) acc).1.start_state = acc.1.start_state := by
  induction cs with
  | nil => intro acc h; exact ⟨h, fun e he => he, rfl⟩
  | cons c cs ih =>
    intro acc h
    obtain ⟨h1, h2, h3⟩ := dfa_char_step_inv nfa q acc c h
    obtain ⟨g1, g2, g3⟩ := ih (dfa_char_step nfa q acc c) h1
    exact ⟨g1, fun e he => g2 e (h2 e he), by rw [List.foldl_cons, g3, h3]⟩

theorem construct_dfa_loop_inv (nfa : NFA) :
    ∀ fuel (acc : DFA × List (Finset Nat × Nat) × List (Finset Nat)),
      QInv nfa acc.1 acc.2.1 →
      QInv nfa (construct_dfa_loop nfa fuel acc).1 (construct_dfa_loop nfa fuel acc).2 ∧
      (∀ e ∈ acc.2.1, e ∈ (construct_dfa_loop nfa fuel acc).2) ∧
      (construct_dfa_loop nfa fuel acc).1.start_state = acc.1.start_state := by
  intro fuel
  induction fuel with
  | zero =>
    intro acc h
    obtain ⟨d, ql, wl⟩ := acc
    exact ⟨h, fun e he => he, rfl⟩
  | succ fuel ih =>
    intro acc h
    obtain ⟨d, ql, wl⟩ := acc
    cases wl with
    | nil => exact ⟨h, fun e he => he, rfl⟩
    | cons qq rest =>
      rw [construct_dfa_loop]
      obtain ⟨h1, h2, h3⟩ := foldl_char_step_inv nfa qq nfa.alphabet (d, ql, rest) h
      obtain ⟨g1, g2, g3⟩ := ih _ h1
      exact ⟨g1, fun e he => g2 e (h2 e he), by rw [g3, h3]⟩

theorem construct_dfa_init_inv (nfa : NFA) :
    QInv nfa (construct_dfa_init nfa).1 (construct_dfa_init nfa).2.1 ∧
    (construct_dfa_init nfa).2.1 = [(get_epsilon_closure nfa {nfa.startState}, 0)] ∧
    (construct_dfa_init nfa).1.start_state = 0 := by
  rw [construct_dfa_init]
  by_cases hne : (get_epsilon_closure nfa {nfa.startState} ∩ nfa.acceptors).Nonempty
  · rw [if_pos hne]
    refine ⟨⟨rfl, ?_⟩, rfl, rfl⟩
    intro e hel
    simp only [List.mem_singleton] at hel
    subst hel
    exact ⟨Nat.zero_lt_one, by simp [DFA.acceptBit, DFA.new, DFA.setAlphabet, DFA.add_state,
      DFA.setStart, DFA.set_accept_state, hne]⟩
  · rw [if_neg hne]
    refine ⟨⟨rfl, ?_⟩, rfl, rfl⟩
    intro e hel
    simp only [List.mem_singleton] at hel
    subst hel
    exact ⟨Nat.zero_lt_one, by simp [DFA.acceptBit, DFA.new, DFA.setAlphabet, DFA.add_state,
      DFA.setStart, hne]⟩

theorem set_regex_fields (d : DFA) (rg : String) :
    (d.set_regex rg).states = d.states ∧ (d.set_regex rg).accept_states = d.accept_states ∧
    (d.set_regex rg).start_state = d.start_state := by
  obtain ⟨st, ss, ac, al, r⟩ := d
  simp [DFA.set_regex]

/-- C6: in the DFA built by construct_dfa (stated for every fuel of the
embedded work-list loop, hence for the loop however long it runs), a
DFA state is marked accepting iff the NFA state set it was created
from — its entry in the state_sets mapping — intersects the NFA
acceptor set; the start state is the state registered for the
ε-closure of the NFA start singleton. -/
theorem c6_accept_iff_intersect (nfa : NFA) :
    (∀ fuel, ∀ e ∈ (construct_dfa_full nfa fuel).2,
      ((construct_dfa_full nfa fuel).1.acceptBit e.2 = true ↔
        (e.1 ∩ nfa.acceptors).Nonempty)) ∧
    (∀ fuel,
      (get_epsilon_closure nfa {nfa.startState}, (construct_dfa_full nfa fuel).1.start_state)
        ∈ (construct_dfa_full nfa fuel).2) ∧
    (∀ e ∈ (construct_dfa nfa).2,
      ((construct_dfa nfa).1.acceptBit e.2 = true ↔ (e.1 ∩ nfa.acceptors).Nonempty)) := by
  have key : ∀ fuel, (∀ e ∈ (construct_dfa_full nfa fuel).2,
      ((construct_dfa_full nfa fuel).1.acceptBit e.2 = true ↔
        (e.1 ∩ nfa.acceptors).Nonempty)) ∧
      (get_epsilon_closure nfa {nfa.startState}, (construct_dfa_full nfa fuel).1.start_state)
        ∈ (construct_dfa_full nfa fuel).2 := by
    intro fuel
    obtain ⟨i1, i2, i3⟩ := construct_dfa_init_inv nfa
    obtain ⟨g1, g2, g3⟩ := construct_dfa_loop_inv nfa fuel (construct_dfa_init nfa) i1
    constructor
    · intro e hel
      rw [construct_dfa_full] at hel ⊢
      dsimp only at hel ⊢
      have hb : ((construct_dfa_loop nfa fuel (construct_dfa_init nfa)).1.set_regex
          nfa.regex).acceptBit e.2 =
          (construct_dfa_loop nfa fuel (construct_dfa_init nfa)).1.acceptBit e.2 := by
        unfold DFA.acceptBit
        rw [(set_regex_fields ..).2.1]
      rw [hb]
      exact (g1.2 e hel).2
    · rw [construct_dfa_full]
      dsimp only
      rw [(set_regex_fields ..).2.2, g3, i3]
      apply g2
      rw [i2]
      simp
  refine ⟨fun fuel => (key fuel).1, fun fuel => (key fuel).2, (key _).1⟩

/-- Witness for C6 at the one-state NFA whose single state accepts. -/
theorem c6_accept_iff_intersect_witness :
    ((construct_dfa exNfaC6).1.acceptBit 0 = true ↔
      ((get_epsilon_closure exNfaC6 {0}) ∩ exNfaC6.acceptors).Nonempty) ∧
    (construct_dfa exNfaC6).1.acceptBit 0 = true :=
  ⟨by
    have h := (c6_accept_iff_intersect exNfaC6).2.2 (get_epsilon_closure exNfaC6 {0}, 0) (by decide)
    exact h,
   by decide⟩

theorem lookupA_addMember (l : SetMap) (k s : Nat) (q : Nat) :
    lookupA (addMember l k s) q =
      if q = k then some (insert s ((lookupA l k).getD ∅)) else lookupA l q := by
  induction l with
  | nil =>
    by_cases h : q = k
    · simp_all [addMember, lookupA]
    · simp_all [addMember, lookupA]
      simp [Ne.symm h]
  | cons p rest ih =>
    obtain ⟨k', S⟩ := p
    by_cases hk : k' = k
    · subst hk
      by_cases hq : q = k'
      · subst hq; simp [addMember, lookupA]
      · simp [addMember, lookupA, Ne.symm hq, hq]
    · by_cases hq : q = k'
      · subst hq
        simp [addMember, lookupA, hk, Ne.symm hk]
      · simp [addMember, lookupA, hk, Ne.symm hq, ih]

theorem lookupA_eq_none (l : SetMap) (k : Nat) (h : k ∉ l.map Prod.fst) :
    lookupA l k = none := by
  induction l with
  | nil => rfl
  | cons p rest ih =>
    obtain ⟨k', S⟩ := p
    simp only [List.map_cons, List.mem_cons, not_or] at h
    rw [lookupA, if_neg (fun hh => h.1 hh.symm)]
    exact ih h.2

theorem lookupA_removeMember (l : SetMap) (k s : Nat) (q : Nat)
    (hnd : (l.map Prod.fst).Nodup) :
    lookupA (removeMember l k s) q =
      if q = k then
        match lookupA l k with
        | some S => if S.erase s = ∅ then none else some (S.erase s)
        | none => none
      else lookupA l q := by
  induction l with
  | nil => by_cases h : q = k <;> simp [removeMember, lookupA, h]
  | cons p rest ih =>
    obtain ⟨k', S⟩ := p
    simp only [List.map_cons, List.nodup_cons] at hnd
    obtain ⟨hk0, hnd⟩ := hnd
    have hlk' : lookupA rest k' = none := lookupA_eq_none rest k' hk0
    by_cases hk : k' = k
    · subst hk
      by_cases he : S.erase s = ∅
      · by_cases hq : q = k'
        · subst hq
          simp [removeMember, lookupA, he, hlk']
        · simp [removeMember, lookupA, he, Ne.symm hq, hq]
      · by_cases hq : q = k'
        · subst hq
          simp [removeMember, lookupA, he]
        · simp [removeMember, lookupA, he, Ne.symm hq, hq]
    · by_cases hq : q = k'
      · subst hq
        simp [removeMember, lookupA, Ne.symm hk, hk, ih hnd]
      · simp [removeMember, lookupA, hk, Ne.symm hq, hq, ih hnd]



theorem lookupA_isSome_of_mem (l : SetMap) (k : Nat) (h : k ∈ l.map Prod.fst) :
    (lookupA l k).isSome := by
  induction l with
  | nil => simp at h
  | cons p rest ih =>
    obtain ⟨k', S⟩ := p
    by_cases hk : k' = k
    · subst hk; simp [lookupA]
    · rw [lookupA, if_neg hk]
      rcases List.mem_cons.mp h with h | h
      · exact absurd h.symm hk
      · exact ih h

theorem mem_of_lookupA (l : SetMap) (k : Nat) (S : Finset Nat) (h : lookupA l k = some S) :
    (k, S) ∈ l := by
  induction l with
  | nil => simp [lookupA] at h
  | cons p rest ih =>
    obtain ⟨k', S'⟩ := p
    by_cases hk : k' = k
    · subst hk
      rw [lookupA, if_pos rfl] at h
      injection h with h
      subst h
      exact List.mem_cons_self _ _
    · rw [lookupA, if_neg hk] at h
      exact List.mem_cons_of_mem _ (ih h)

theorem lookupA_of_mem (l : SetMap) (hnd : (l.map Prod.fst).Nodup) (p : Nat × Finset Nat)
    (hp : p ∈ l) : lookupA l p.1 = some p.2 := by
  induction l with
  | nil => simp at hp
  | cons q rest ih =>
    obtain ⟨k', S'⟩ := q
    simp only [List.map_cons, List.nodup_cons] at hnd
    rcases List.mem_cons.mp hp with hp | hp
    · subst hp
      simp [lookupA]
    · have : p.1 ≠ k' := by
        intro hh
        exact hnd.1 (hh ▸ List.mem_map_of_mem Prod.fst hp)
      rw [lookupA, if_neg (fun hh => this hh.symm)]
      exact ih hnd.2 hp

theorem keys_addMember_some (l : SetMap) (k s : Nat) (h : (lookupA l k).isSome) :
    (addMember l k s).map Prod.fst = l.map Prod.fst := by
  induction l with
  | nil => simp [lookupA] at h
  | cons p rest ih =>
    obtain ⟨k', S⟩ := p
    by_cases hk : k' = k
    · subst hk; simp [addMember]
    · rw [lookupA, if_neg hk] at h
      simp [addMember, hk, ih h]

theorem keys_addMember_none (l : SetMap) (k s : Nat) (h : lookupA l k = none) :
    (addMember l k s).map Prod.fst = l.map Prod.fst ++ [k] := by
  induction l with
  | nil => simp [addMember]
  | cons p rest ih =>
    obtain ⟨k', S⟩ := p
    by_cases hk : k' = k
    · subst hk; rw [lookupA, if_pos rfl] at h; cases h
    · rw [lookupA, if_neg hk] at h
      simp [addMember, hk, ih h]

theorem keys_removeMember_sublist (l : SetMap) (k s : Nat) :
    ((removeMember l k s).map Prod.fst).Sublist (l.map Prod.fst) := by
  induction l with
  | nil => simp [removeMember]
  | cons p rest ih =>
    obtain ⟨k', S⟩ := p
    by_cases hk : k' = k
    · subst hk
      rw [removeMember, if_pos rfl]
      by_cases he : S.erase s = ∅
      · rw [if_pos he]
        exact List.Sublist.cons _ (List.Sublist.refl _)
      · rw [if_neg he]
        simp
    · rw [removeMember, if_neg hk]
      simp only [List.map_cons]
      exact List.Sublist.cons₂ _ ih



theorem length_addMember (l : SetMap) (k s : Nat) :
    (addMember l k s).length = if (lookupA l k).isSome then l.length else l.length + 1 := by
  induction l with
  | nil => simp [addMember, lookupA]
  | cons p rest ih =>
    obtain ⟨k', S⟩ := p
    by_cases hk : k' = k
    · subst hk; simp [addMember, lookupA]
    · rw [addMember, if_neg hk]
      simp only [List.length_cons, lookupA, if_neg hk, ih]
      by_cases h : (lookupA rest k).isSome <;> simp [h]

theorem length_removeMember_del (l : SetMap) (k s : Nat) (S : Finset Nat)
    (hl : lookupA l k = some S) (he : S.erase s = ∅) :
    (removeMember l k s).length + 1 = l.length := by
  induction l with
  | nil => simp [lookupA] at hl
  | cons p rest ih =>
    obtain ⟨k', S'⟩ := p
    by_cases hk : k' = k
    · subst hk
      rw [lookupA, if_pos rfl] at hl
      injection hl with hl
      subst hl
      rw [removeMember, if_pos rfl, if_pos he]
      simp
    · rw [lookupA, if_neg hk] at hl
      rw [removeMember, if_neg hk]
      simp only [List.length_cons]
      rw [← ih hl]

theorem length_removeMember_keep (l : SetMap) (k s : Nat)
    (h : lookupA l k = none ∨ ∃ S, lookupA l k = some S ∧ S.erase s ≠ ∅) :
    (removeMember l k s).length = l.length := by
  induction l with
  | nil => simp [removeMember]
  | cons p rest ih =>
    obtain ⟨k', S'⟩ := p
    by_cases hk : k' = k
    · subst hk
      rcases h with h | ⟨S, hS, he⟩
      · rw [lookupA, if_pos rfl] at h; cases h
      · rw [lookupA, if_pos rfl] at hS
        injection hS with hS
        subst hS
        rw [removeMember, if_pos rfl, if_neg he]
        simp
    · rw [removeMember, if_neg hk]
      simp only [List.length_cons]
      have : lookupA rest k = none ∨ ∃ S, lookupA rest k = some S ∧ S.erase s ≠ ∅ := by
        rcases h with h | ⟨S, hS, he⟩
        · rw [lookupA, if_neg hk] at h; exact Or.inl h
        · rw [lookupA, if_neg hk] at hS; exact Or.inr ⟨S, hS, he⟩
      rw [ih this]



theorem map_insert_self (t : LookupTable) (s k : Nat) :
    (t.insert_state_in_set s k).state_to_set_map s = some k := by
  simp [LookupTable.insert_state_in_set]

theorem map_insert_other (t : LookupTable) (s k x : Nat) (h : x ≠ s) :
    (t.insert_state_in_set s k).state_to_set_map x = t.state_to_set_map x := by
  simp [LookupTable.insert_state_in_set, h]

theorem lookupA_insert_none (t : LookupTable) (s k q : Nat)
    (hprev : t.state_to_set_map s = none) :
    lookupA (t.insert_state_in_set s k).set_to_states_map q =
      if q = k then some (insert s ((lookupA t.set_to_states_map k).getD ∅))
      else lookupA t.set_to_states_map q := by
  show lookupA (addMember _ k s) q = _
  rw [hprev]
  by_cases h : q = k
  · simp [h, lookupA_addMember, Finset.insert_idem]
  · simp [h, lookupA_addMember]

theorem lookupA_insert_some (t : LookupTable) (s k p q : Nat)
    (hprev : t.state_to_set_map s = some p) :
    lookupA (t.insert_state_in_set s k).set_to_states_map q =
      if q = k then
        some (insert s ((lookupA (removeMember t.set_to_states_map p s) k).getD ∅))
      else lookupA (removeMember t.set_to_states_map p s) q := by
  show lookupA (addMember _ k s) q = _
  rw [hprev]
  by_cases h : q = k
  · simp [h, lookupA_addMember, Finset.insert_idem]
  · simp [h, lookupA_addMember]

theorem keys_insert_nodup (t : LookupTable) (s k : Nat)
    (hnd : (t.set_to_states_map.map Prod.fst).Nodup) :
    ((t.insert_state_in_set s k).set_to_states_map.map Prod.fst).Nodup := by
  have hX : ∀ X : SetMap, (X.map Prod.fst).Nodup →
      ((addMember (addMember X k s) k s).map Prod.fst).Nodup := by
    intro X hXnd
    have h1 : ((addMember X k s).map Prod.fst).Nodup := by
      cases hl : lookupA X k with
      | some S => rw [keys_addMember_some _ _ _ (by simp [hl])]; exact hXnd
      | none =>
        rw [keys_addMember_none _ _ _ hl]
        rw [List.nodup_append]
        refine ⟨hXnd, List.nodup_singleton _, ?_⟩
        intro a ha hb
        simp only [List.mem_singleton] at hb
        subst hb
        have := lookupA_isSome_of_mem X a ha
        rw [hl] at this
        cases this
    have h2 : (lookupA (addMember X k s) k).isSome := by
      rw [lookupA_addMember]
      simp
    rw [keys_addMember_some _ _ _ h2]
    exact h1
  cases hprev : t.state_to_set_map s with
  | none =>
    have heq : (t.insert_state_in_set s k).set_to_states_map =
        addMember (addMember t.set_to_states_map k s) k s := by
      simp [LookupTable.insert_state_in_set, hprev]
    rw [heq]
    exact hX _ hnd
  | some p =>
    have heq : (t.insert_state_in_set s k).set_to_states_map =
        addMember (addMember (removeMember t.set_to_states_map p s) k s) k s := by
      simp [LookupTable.insert_state_in_set, hprev]
    rw [heq]
    exact hX _ ((keys_removeMember_sublist _ p s).nodup hnd)



theorem removeMember_forward (l : SetMap) (p s q : Nat) (S' : Finset Nat)
    (hnd : (l.map Prod.fst).Nodup)
    (h : lookupA (removeMember l p s) q = some S') :
    (q ≠ p ∧ lookupA l q = some S') ∨
    (q = p ∧ ∃ S0, lookupA l p = some S0 ∧ ¬S0.erase s = ∅ ∧ S' = S0.erase s) := by
  rw [lookupA_removeMember _ _ _ _ hnd] at h
  by_cases hqp : q = p
  · right
    refine ⟨hqp, ?_⟩
    rw [if_pos hqp] at h
    cases hlp : lookupA l p with
    | none => rw [hlp] at h; cases h
    | some S0 =>
      rw [hlp] at h
      dsimp only at h
      by_cases he : S0.erase s = ∅
      · rw [if_pos he] at h; cases h
      · rw [if_neg he] at h
        injection h with h
        exact ⟨S0, rfl, he, h.symm⟩
  · left
    rw [if_neg hqp] at h
    exact ⟨hqp, h⟩

theorem removeMember_backward (l : SetMap) (p s q x : Nat) (S0 : Finset Nat)
    (hnd : (l.map Prod.fst).Nodup)
    (h : lookupA l q = some S0) (hx : x ∈ S0) (hxs : x ≠ s) :
    ∃ S', lookupA (removeMember l p s) q = some S' ∧ x ∈ S' := by
  rw [lookupA_removeMember _ _ _ _ hnd]
  by_cases hqp : q = p
  · subst hqp
    rw [if_pos rfl, h]
    dsimp only
    by_cases he : S0.erase s = ∅
    · exact absurd (Finset.mem_erase.mpr ⟨hxs, hx⟩) (by rw [he]; simp)
    · rw [if_neg he]
      exact ⟨_, rfl, Finset.mem_erase.mpr ⟨hxs, hx⟩⟩
  · rw [if_neg hqp]
    exact ⟨S0, h, hx⟩

theorem insert_mem_forward (t : LookupTable) (s k q x : Nat) (S' : Finset Nat)
    (h : t.Inv) (hS' : lookupA (t.insert_state_in_set s k).set_to_states_map q = some S')
    (hx : x ∈ S') (hxs : x ≠ s) : t.state_to_set_map x = some q := by
  obtain ⟨hnd, hne, hiff⟩ := h
  cases hprev : t.state_to_set_map s with
  | none =>
    rw [lookupA_insert_none t s k q hprev] at hS'
    by_cases hqk : q = k
    · subst hqk
      rw [if_pos rfl] at hS'
      injection hS' with hS'
      subst hS'
      rcases Finset.mem_insert.mp hx with hh | hh
      · exact absurd hh hxs
      · cases hlk : lookupA t.set_to_states_map q with
        | none => rw [hlk] at hh; simp at hh
        | some S0 =>
          rw [hlk] at hh
          exact (hiff x q).mpr ⟨S0, hlk, by simpa using hh⟩
    · rw [if_neg hqk] at hS'
      exact (hiff x q).mpr ⟨S', hS', hx⟩
  | some p =>
    rw [lookupA_insert_some t s k p q hprev] at hS'
    by_cases hqk : q = k
    · subst hqk
      rw [if_pos rfl] at hS'
      injection hS' with hS'
      subst hS'
      rcases Finset.mem_insert.mp hx with hh | hh
      · exact absurd hh hxs
      · cases hlk : lookupA (removeMember t.set_to_states_map p s) q with
        | none => rw [hlk] at hh; simp at hh
        | some S2 =>
          rw [hlk] at hh
          simp only [Option.getD_some] at hh
          rcases removeMember_forward _ _ _ _ _ hnd hlk with ⟨hqp, hl⟩ | ⟨hqp, S0, hS0, _, hS2⟩
          · exact (hiff x q).mpr ⟨S2, hl, hh⟩
          · subst hqp
            subst hS2
            exact (hiff x q).mpr ⟨S0, hS0, (Finset.mem_erase.mp hh).2⟩
    · rw [if_neg hqk] at hS'
      rcases removeMember_forward _ _ _ _ _ hnd hS' with ⟨hqp, hl⟩ | ⟨hqp, S0, hS0, _, hS2⟩
      · exact (hiff x q).mpr ⟨S', hl, hx⟩
      · subst hqp
        subst hS2
        exact (hiff x q).mpr ⟨S0, hS0, (Finset.mem_erase.mp hx).2⟩

theorem insert_mem_backward (t : LookupTable) (s k q x : Nat)
    (h : t.Inv) (hq : t.state_to_set_map x = some q) (hxs : x ≠ s) :
    ∃ S', lookupA (t.insert_state_in_set s k).set_to_states_map q = some S' ∧ x ∈ S' := by
  obtain ⟨hnd, hne, hiff⟩ := h
  obtain ⟨S0, hS0, hx0⟩ := (hiff x q).mp hq
  cases hprev : t.state_to_set_map s with
  | none =>
    rw [lookupA_insert_none t s k q hprev]
    by_cases hqk : q = k
    · subst hqk
      rw [if_pos rfl, hS0]
      exact ⟨_, rfl, Finset.mem_insert_of_mem hx0⟩
    · rw [if_neg hqk]
      exact ⟨S0, hS0, hx0⟩
  | some p =>
    rw [lookupA_insert_some t s k p q hprev]
    obtain ⟨S', hS', hxS'⟩ := removeMember_backward _ p s q x S0 hnd hS0 hx0 hxs
    by_cases hqk : q = k
    · subst hqk
      rw [if_pos rfl, hS']
      exact ⟨_, rfl, Finset.mem_insert_of_mem hxS'⟩
    · rw [if_neg hqk]
      exact ⟨S', hS', hxS'⟩

theorem insert_mem_s (t : LookupTable) (s k q : Nat) (S' : Finset Nat)
    (h : t.Inv) (hS' : lookupA (t.insert_state_in_set s k).set_to_states_map q = some S')
    (hs : s ∈ S') : q = k := by
  obtain ⟨hnd, hne, hiff⟩ := h
  by_contra hqk
  cases hprev : t.state_to_set_map s with
  | none =>
    rw [lookupA_insert_none t s k q hprev, if_neg hqk] at hS'
    have := (hiff s q).mpr ⟨S', hS', hs⟩
    rw [hprev] at this
    cases this
  | some p =>
    rw [lookupA_insert_some t s k p q hprev, if_neg hqk] at hS'
    rcases removeMember_forward _ _ _ _ _ hnd hS' with ⟨hqp, hl⟩ | ⟨hqp, S0, hS0, _, hS2⟩
    · have := (hiff s q).mpr ⟨S', hl, hs⟩
      rw [hprev] at this
      injection this with this
      exact hqp this.symm
    · subst hS2
      exact absurd rfl (Finset.mem_erase.mp hs).1

theorem insert_k_has_s (t : LookupTable) (s k : Nat) :
    ∃ S', lookupA (t.insert_state_in_set s k).set_to_states_map k = some S' ∧ s ∈ S' := by
  cases hprev : t.state_to_set_map s with
  | none =>
    rw [lookupA_insert_none t s k k hprev, if_pos rfl]
    exact ⟨_, rfl, Finset.mem_insert_self _ _⟩
  | some p =>
    rw [lookupA_insert_some t s k p k hprev, if_pos rfl]
    exact ⟨_, rfl, Finset.mem_insert_self _ _⟩

theorem insert_nonempty (t : LookupTable) (s k q : Nat) (S' : Finset Nat)
    (h : t.Inv) (hS' : lookupA (t.insert_state_in_set s k).set_to_states_map q = some S') :
    S'.Nonempty := by
  obtain ⟨hnd, hne, hiff⟩ := h
  cases hprev : t.state_to_set_map s with
  | none =>
    rw [lookupA_insert_none t s k q hprev] at hS'
    by_cases hqk : q = k
    · rw [if_pos hqk] at hS'
      injection hS' with hS'
      exact hS' ▸ ⟨s, Finset.mem_insert_self _ _⟩
    · rw [if_neg hqk] at hS'
      exact hne q S' hS'
  | some p =>
    rw [lookupA_insert_some t s k p q hprev] at hS'
    by_cases hqk : q = k
    · rw [if_pos hqk] at hS'
      injection hS' with hS'
      exact hS' ▸ ⟨s, Finset.mem_insert_self _ _⟩
    · rw [if_neg hqk] at hS'
      rcases removeMember_forward _ _ _ _ _ hnd hS' with ⟨hqp, hl⟩ | ⟨hqp, S0, hS0, he, hS2⟩
      · exact hne q S' hl
      · exact hS2 ▸ Finset.nonempty_iff_ne_empty.mpr he

theorem insert_Inv (t : LookupTable) (s k : Nat) (h : t.Inv) :
    (t.insert_state_in_set s k).Inv := by
  refine ⟨keys_insert_nodup t s k h.1, ?_, ?_⟩
  · intro q S' hS'
    exact insert_nonempty t s k q S' h hS'
  · intro x q
    by_cases hx : x = s
    · subst hx
      rw [map_insert_self]
      constructor
      · intro hq
        injection hq with hq
        subst hq
        exact insert_k_has_s t x k
      · rintro ⟨S', hS', hxS'⟩
        rw [insert_mem_s t x k q S' h hS' hxS']
    · rw [map_insert_other t s k x hx]
      constructor
      · intro hq
        exact insert_mem_backward t s k q x h hq hx
      · rintro ⟨S', hS', hxS'⟩
        exact insert_mem_forward t s k q x S' h hS' hxS' hx



theorem keys_mem_addMember (l : SetMap) (k s : Nat) (p : Nat × Finset Nat)
    (hp : p ∈ addMember l k s) : p.1 ∈ l.map Prod.fst ∨ p.1 = k := by
  induction l with
  | nil =>
    simp only [addMember, List.mem_singleton] at hp
    subst hp
    exact Or.inr rfl
  | cons q rest ih =>
    obtain ⟨k', S⟩ := q
    by_cases hk : k' = k
    · subst hk
      rw [addMember, if_pos rfl] at hp
      rcases List.mem_cons.mp hp with hp | hp
      · subst hp; exact Or.inr rfl
      · exact Or.inl (by simp [List.mem_map_of_mem Prod.fst hp])
    · rw [addMember, if_neg hk] at hp
      rcases List.mem_cons.mp hp with hp | hp
      · subst hp; left; simp
      · rcases ih hp with h | h
        · left; simp only [List.map_cons, List.mem_cons]; exact Or.inr h
        · exact Or.inr h

theorem keys_mem_removeMember (l : SetMap) (k s : Nat) (p : Nat × Finset Nat)
    (hp : p ∈ removeMember l k s) : p.1 ∈ l.map Prod.fst := by
  induction l with
  | nil => simp [removeMember] at hp
  | cons q rest ih =>
    obtain ⟨k', S⟩ := q
    by_cases hk : k' = k
    · subst hk
      rw [removeMember, if_pos rfl] at hp
      by_cases he : S.erase s = ∅
      · rw [if_pos he] at hp
        simp only [List.map_cons, List.mem_cons]
        exact Or.inr (List.mem_map_of_mem Prod.fst hp)
      · rw [if_neg he] at hp
        rcases List.mem_cons.mp hp with hp | hp
        · subst hp; simp
        · simp only [List.map_cons, List.mem_cons]
          exact Or.inr (List.mem_map_of_mem Prod.fst hp)
    · rw [removeMember, if_neg hk] at hp
      rcases List.mem_cons.mp hp with hp | hp
      · subst hp; simp
      · simp only [List.map_cons, List.mem_cons]
        exact Or.inr (ih hp)

theorem num_insert_shape (t : LookupTable) (s k : Nat) :
    ∀ X : SetMap,
      ((t.state_to_set_map s = none ∧ X = t.set_to_states_map) ∨
        (∃ p, t.state_to_set_map s = some p ∧ X = removeMember t.set_to_states_map p s)) →
      (t.insert_state_in_set s k).get_num_sets =
        if (lookupA X k).isSome then X.length else X.length + 1 := by
  intro X hX
  have key : ∀ Y : SetMap, (addMember (addMember Y k s) k s).length =
      if (lookupA Y k).isSome then Y.length else Y.length + 1 := by
    intro Y
    rw [length_addMember, lookupA_addMember]
    simp only [if_pos rfl, Option.isSome_some, if_true]
    rw [length_addMember]
  rcases hX with ⟨hprev, hXeq⟩ | ⟨p, hprev, hXeq⟩
  · subst hXeq
    have heq : (t.insert_state_in_set s k).set_to_states_map =
        addMember (addMember t.set_to_states_map k s) k s := by
      simp [LookupTable.insert_state_in_set, hprev]
    unfold LookupTable.get_num_sets
    rw [heq]
    exact key _
  · subst hXeq
    have heq : (t.insert_state_in_set s k).set_to_states_map =
        addMember (addMember (removeMember t.set_to_states_map p s) k s) k s := by
      simp [LookupTable.insert_state_in_set, hprev]
    unfold LookupTable.get_num_sets
    rw [heq]
    exact key _



theorem keys_mem_insert (t : LookupTable) (s k : Nat) (p' : Nat × Finset Nat)
    (hp' : p' ∈ (t.insert_state_in_set s k).set_to_states_map) :
    p'.1 ∈ t.set_to_states_map.map Prod.fst ∨ p'.1 = k := by
  have step : ∀ X : SetMap, p' ∈ addMember (addMember X k s) k s →
      p'.1 ∈ X.map Prod.fst ∨ p'.1 = k := by
    intro X hmem
    rcases keys_mem_addMember _ _ _ _ hmem with h | h
    · rcases List.mem_map.mp h with ⟨q, hq, hq1⟩
      rcases keys_mem_addMember _ _ _ _ hq with h2 | h2
      · exact Or.inl (hq1 ▸ h2)
      · exact Or.inr (hq1 ▸ h2)
    · exact Or.inr h
  cases hprev : t.state_to_set_map s with
  | none =>
    have heq : (t.insert_state_in_set s k).set_to_states_map =
        addMember (addMember t.set_to_states_map k s) k s := by
      simp [LookupTable.insert_state_in_set, hprev]
    rw [heq] at hp'
    exact step _ hp'
  | some p =>
    have heq : (t.insert_state_in_set s k).set_to_states_map =
        addMember (addMember (removeMember t.set_to_states_map p s) k s) k s := by
      simp [LookupTable.insert_state_in_set, hprev]
    rw [heq] at hp'
    rcases step _ hp' with h | h
    · rcases List.mem_map.mp h with ⟨q, hq, hq1⟩
      exact Or.inl (hq1 ▸ keys_mem_removeMember _ _ _ _ hq)
    · exact Or.inr h

theorem key_le_of_mem_keys (t : LookupTable) (hKB : t.KeysBound) (k : Nat)
    (h : k ∈ t.set_to_states_map.map Prod.fst) : k ≤ t.get_num_sets := by
  rcases List.mem_map.mp h with ⟨q, hq, hq1⟩
  exact hq1 ▸ hKB q hq

theorem insert_good (t : LookupTable) (n s k : Nat) (hg : t.Good n) (hs : s < n)
    (hk : k ≤ t.get_num_sets + 1)
    (hsafe : t.state_to_set_map s = none ∨ t.state_to_set_map s = some k ∨
      ∃ p y, t.state_to_set_map s = some p ∧ y ≠ s ∧ t.state_to_set_map y = some p) :
    (t.insert_state_in_set s k).Good n ∧
    t.get_num_sets ≤ (t.insert_state_in_set s k).get_num_sets ∧
    (t.insert_state_in_set s k).get_num_sets ≤ t.get_num_sets + 1 := by
  obtain ⟨hInv, hDom, hKB⟩ := hg
  have hlen : t.get_num_sets = t.set_to_states_map.length := rfl
  have hnum : t.get_num_sets ≤ (t.insert_state_in_set s k).get_num_sets ∧
      (t.insert_state_in_set s k).get_num_sets ≤ t.get_num_sets + 1 ∧
      ((t.insert_state_in_set s k).get_num_sets = t.get_num_sets →
        k ∈ t.set_to_states_map.map Prod.fst) := by
    rcases hsafe with hprev | hprev | ⟨p, y, hprev, hys, hyp⟩
    · rw [num_insert_shape t s k t.set_to_states_map (Or.inl ⟨hprev, rfl⟩)]
      cases hlk : lookupA t.set_to_states_map k with
      | some S =>
        simp only [Option.isSome_some, if_true]
        exact ⟨le_refl _, by omega, fun _ =>
          List.mem_map_of_mem Prod.fst (mem_of_lookupA _ _ _ hlk)⟩
      | none =>
        simp only [Option.isSome_none, Bool.false_eq_true, if_false]
        exact ⟨by omega, by omega, fun hcon => absurd hcon (by omega)⟩
    · obtain ⟨S, hSk, hsS⟩ := (hInv.2.2 s k).mp hprev
      have hmemk : k ∈ t.set_to_states_map.map Prod.fst :=
        List.mem_map_of_mem Prod.fst (mem_of_lookupA _ _ _ hSk)
      rw [num_insert_shape t s k (removeMember t.set_to_states_map k s)
        (Or.inr ⟨k, hprev, rfl⟩)]
      by_cases he : S.erase s = ∅
      · have hdel := length_removeMember_del _ _ _ _ hSk he
        have hnone : lookupA (removeMember t.set_to_states_map k s) k = none := by
          rw [lookupA_removeMember _ _ _ _ hInv.1, if_pos rfl, hSk]
          dsimp only
          rw [if_pos he]
        rw [hnone]
        simp only [Option.isSome_none, Bool.false_eq_true, if_false]
        exact ⟨by omega, by omega, fun _ => hmemk⟩
      · have hkeep := length_removeMember_keep t.set_to_states_map k s
          (Or.inr ⟨S, hSk, he⟩)
        have hsome : lookupA (removeMember t.set_to_states_map k s) k =
            some (S.erase s) := by
          rw [lookupA_removeMember _ _ _ _ hInv.1, if_pos rfl, hSk]
          dsimp only
          rw [if_neg he]
        rw [hsome]
        simp only [Option.isSome_some, if_true]
        exact ⟨by omega, by omega, fun _ => hmemk⟩
    · obtain ⟨Sp, hSp, hySp⟩ := (hInv.2.2 y p).mp hyp
      have he : ¬Sp.erase s = ∅ := by
        intro hcon
        have : y ∈ Sp.erase s := Finset.mem_erase.mpr ⟨hys, hySp⟩
        rw [hcon] at this
        simp at this
      have hkeep := length_removeMember_keep t.set_to_states_map p s
        (Or.inr ⟨Sp, hSp, he⟩)
      rw [num_insert_shape t s k (removeMember t.set_to_states_map p s)
        (Or.inr ⟨p, hprev, rfl⟩)]
      cases hlk : lookupA (removeMember t.set_to_states_map p s) k with
      | some S2 =>
        simp only [Option.isSome_some, if_true]
        refine ⟨by omega, by omega, fun _ => ?_⟩
        rcases removeMember_forward _ _ _ _ _ hInv.1 hlk with ⟨_, hl⟩ | ⟨hkp, S0, hS0, _, _⟩
        · exact List.mem_map_of_mem Prod.fst (mem_of_lookupA _ _ _ hl)
        · exact List.mem_map_of_mem Prod.fst (mem_of_lookupA _ _ _ (hkp ▸ hS0))
      | none =>
        simp only [Option.isSome_none, Bool.false_eq_true, if_false]
        exact ⟨by omega, by omega, fun hcon => absurd hcon (by omega)⟩
  refine ⟨⟨insert_Inv t s k hInv, ?_, ?_⟩, hnum.1, hnum.2.1⟩
  · intro x q hq
    by_cases hx : x = s
    · exact hx ▸ hs
    · rw [map_insert_other t s k x hx] at hq
      exact hDom x q hq
  · intro p' hp'
    have hlen2 : (t.insert_state_in_set s k).get_num_sets =
        (t.insert_state_in_set s k).set_to_states_map.length := rfl
    have hle : t.get_num_sets ≤ (t.insert_state_in_set s k).get_num_sets := hnum.1
    rcases keys_mem_insert t s k p' hp' with h | h
    · have := key_le_of_mem_keys t hKB p'.1 h
      omega
    · rw [h]
      rcases Nat.lt_or_ge t.get_num_sets (t.insert_state_in_set s k).get_num_sets with hlt | hge
      · omega
      · have heq : (t.insert_state_in_set s k).get_num_sets = t.get_num_sets := by omega
        have := key_le_of_mem_keys t hKB k (hnum.2.2 heq)
        omega



theorem LookupTable_new_Inv : LookupTable.new.Inv := by
  refine ⟨by simp [LookupTable.new], fun k S h => Option.noConfusion h, fun s k => ?_⟩
  simp [LookupTable.new, lookupA]

theorem foldl_insert_Inv (ops : List (Nat × Nat)) :
    ∀ t : LookupTable, t.Inv →
      (ops.foldl (fun t p => t.insert_state_in_set p.1 p.2) t).Inv := by
  induction ops with
  | nil => intro t h; exact h
  | cons p rest ih => intro t h; exact ih _ (insert_Inv _ _ _ h)

theorem Inv_unique (t : LookupTable) (h : t.Inv) (x k1 k2 : Nat) (S1 S2 : Finset Nat)
    (h1 : lookupA t.set_to_states_map k1 = some S1) (hx1 : x ∈ S1)
    (h2 : lookupA t.set_to_states_map k2 = some S2) (hx2 : x ∈ S2) : k1 = k2 := by
  have a1 := (h.2.2 x k1).mpr ⟨S1, h1, hx1⟩
  have a2 := (h.2.2 x k2).mpr ⟨S2, h2, hx2⟩
  rw [a1] at a2
  exact Option.some.inj a2

/-- C10: starting from LookupTable::new(), after any sequence of
insert_state_in_set calls the two maps are mutual inverses (a state
maps to a partition id iff it is a member of that partition's set),
no empty member set remains, the partition ids are unique, and —
consequently — every recorded state occurs in the member set of
exactly one partition id. -/
theorem c10_lookup_invariant (ops : List (Nat × Nat)) :
    (ops.foldl (fun t p => t.insert_state_in_set p.1 p.2) LookupTable.new).Inv ∧
    (∀ x k1 k2 S1 S2,
      lookupA (ops.foldl (fun t p => t.insert_state_in_set p.1 p.2)
        LookupTable.new).set_to_states_map k1 = some S1 → x ∈ S1 →
      lookupA (ops.foldl (fun t p => t.insert_state_in_set p.1 p.2)
        LookupTable.new).set_to_states_map k2 = some S2 → x ∈ S2 → k1 = k2) := by
  have h := foldl_insert_Inv ops LookupTable.new LookupTable_new_Inv
  exact ⟨h, fun x k1 k2 S1 S2 h1 hx1 h2 hx2 => Inv_unique _ h x k1 k2 S1 S2 h1 hx1 h2 hx2⟩

/-- Witness for C10 at a concrete insertion sequence that exercises
the move-between-sets path. -/
theorem c10_lookup_invariant_witness :
    (([(0, 0), (1, 1), (0, 1)] : List (Nat × Nat)).foldl
      (fun t p => t.insert_state_in_set p.1 p.2) LookupTable.new).Inv :=
  (c10_lookup_invariant [(0, 0), (1, 1), (0, 1)]).1



theorem splitSymbols_self (dfa : DFA) (next m : Nat) :
    ∀ (cs : List Char) (t : LookupTable),
      splitSymbols dfa ((dfa.getState m).transitions) next m t cs = t := by
  intro cs
  induction cs with
  | nil => intro t; rfl
  | cons c rest ih =>
    intro t
    rw [splitSymbols]
    cases hmc : (dfa.getState m).transitions (Symbol.Char c) with
    | none => exact ih t
    | some d =>
      dsimp only
      rw [if_pos rfl]
      exact ih t

theorem splitSymbols_inv (dfa : DFA) (n : Nat) (mTrans : Symbol → Option Nat)
    (b next m sid : Nat) (hms : sid ≠ m) :
    ∀ (cs : List Char) (t : LookupTable),
      t.Good n → sid < n →
      (t.state_to_set_map sid = some b ∨ t.state_to_set_map sid = some next) →
      t.state_to_set_map m = some b →
      next ≤ t.get_num_sets + 1 →
      (splitSymbols dfa mTrans next sid t cs).Good n ∧
      t.get_num_sets ≤ (splitSymbols dfa mTrans next sid t cs).get_num_sets ∧
      next ≤ (splitSymbols dfa mTrans next sid t cs).get_num_sets + 1 ∧
      ((splitSymbols dfa mTrans next sid t cs).state_to_set_map sid = some b ∨
        (splitSymbols dfa mTrans next sid t cs).state_to_set_map sid = some next) ∧
      (∀ x, x ≠ sid →
        (splitSymbols dfa mTrans next sid t cs).state_to_set_map x = t.state_to_set_map x) := by
  intro cs
  induction cs with
  | nil =>
    intro t hg hsid hdisj hm hnext
    exact ⟨hg, le_refl _, hnext, hdisj, fun x _ => rfl⟩
  | cons c rest ih =>
    intro t hg hsid hdisj hm hnext
    have hinsert : ∀ tt : LookupTable, tt = t.insert_state_in_set sid next →
        tt.Good n ∧ t.get_num_sets ≤ tt.get_num_sets ∧ next ≤ tt.get_num_sets + 1 ∧
        (tt.state_to_set_map sid = some b ∨ tt.state_to_set_map sid = some next) ∧
        (∀ x, x ≠ sid → tt.state_to_set_map x = t.state_to_set_map x) := by
      intro tt htt
      subst htt
      have hsafe : t.state_to_set_map sid = none ∨ t.state_to_set_map sid = some next ∨
          ∃ p y, t.state_to_set_map sid = some p ∧ y ≠ sid ∧ t.state_to_set_map y = some p := by
        rcases hdisj with h | h
        · exact Or.inr (Or.inr ⟨b, m, h, fun hh => hms hh.symm, hm⟩)
        · exact Or.inr (Or.inl h)
      obtain ⟨hg', hge, hle⟩ := insert_good t n sid next hg hsid hnext hsafe
      refine ⟨hg', hge, by omega, Or.inr (map_insert_self t sid next), ?_⟩
      intro x hx
      exact map_insert_other t sid next x (fun hh => hx hh)
    rw [splitSymbols]
    cases hsc : (dfa.getState sid).transitions (Symbol.Char c) with
    | none =>
      cases hmc : mTrans (Symbol.Char c) with
      | none => exact ih t hg hsid hdisj hm hnext
      | some d =>
        obtain ⟨g1, g2, g3, g4, g5⟩ := hinsert _ rfl
        obtain ⟨r1, r2, r3, r4, r5⟩ := ih _ g1 hsid g4 (by rw [g5 m (fun hh => hms hh.symm)]; exact hm) g3
        exact ⟨r1, le_trans g2 r2, r3, r4, fun x hx => by rw [r5 x hx, g5 x hx]⟩
    | some sd =>
      cases hmc : mTrans (Symbol.Char c) with
      | none =>
        obtain ⟨g1, g2, g3, g4, g5⟩ := hinsert _ rfl
        obtain ⟨r1, r2, r3, r4, r5⟩ := ih _ g1 hsid g4 (by rw [g5 m (fun hh => hms hh.symm)]; exact hm) g3
        exact ⟨r1, le_trans g2 r2, r3, r4, fun x hx => by rw [r5 x hx, g5 x hx]⟩
      | some md =>
        dsimp only
        by_cases hdest : (t.state_to_set_map sd).getD 0 = (t.state_to_set_map md).getD 0
        · rw [if_pos hdest]
          exact ih t hg hsid hdisj hm hnext
        · rw [if_neg hdest]
          exact hinsert _ rfl



theorem splitFold_inv (dfa : DFA) (n b next m : Nat) (B : Finset Nat) (hmB : m ∈ B) :
    ∀ (l : List Nat) (t' : LookupTable),
      (∀ s ∈ l, s ∈ B) →
      t'.Good n →
      (∀ x ∈ B, t'.state_to_set_map x = some b ∨ t'.state_to_set_map x = some next) →
      t'.state_to_set_map m = some b →
      next ≤ t'.get_num_sets + 1 →
      (l.foldl (fun tt sid =>
        splitSymbols dfa ((dfa.getState m).transitions) next sid tt dfa.alphabet) t').Good n ∧
      t'.get_num_sets ≤ (l.foldl (fun tt sid =>
        splitSymbols dfa ((dfa.getState m).transitions) next sid tt dfa.alphabet)
          t').get_num_sets ∧
      (∀ x ∈ B, (l.foldl (fun tt sid =>
        splitSymbols dfa ((dfa.getState m).transitions) next sid tt dfa.alphabet)
          t').state_to_set_map x = some b ∨
        (l.foldl (fun tt sid =>
          splitSymbols dfa ((dfa.getState m).transitions) next sid tt dfa.alphabet)
            t').state_to_set_map x = some next) ∧
      (l.foldl (fun tt sid =>
        splitSymbols dfa ((dfa.getState m).transitions) next sid tt dfa.alphabet)
          t').state_to_set_map m = some b ∧
      next ≤ (l.foldl (fun tt sid =>
        splitSymbols dfa ((dfa.getState m).transitions) next sid tt dfa.alphabet)
          t').get_num_sets + 1 ∧
      (∀ x, x ∉ B → (l.foldl (fun tt sid =>
        splitSymbols dfa ((dfa.getState m).transitions) next sid tt dfa.alphabet)
          t').state_to_set_map x = t'.state_to_set_map x) := by
  intro l
  induction l with
  | nil =>
    intro t' _ hg hdisj hm hnext
    exact ⟨hg, le_refl _, hdisj, hm, hnext, fun x _ => rfl⟩
  | cons sid rest ih =>
    intro t' hsub hg hdisj hm hnext
    rw [List.foldl_cons]
    by_cases hsm : sid = m
    · subst hsm
      rw [splitSymbols_self]
      exact ih t' (fun s hs => hsub s (List.mem_cons_of_mem _ hs)) hg hdisj hm hnext
    · have hsidB : sid ∈ B := hsub sid (List.mem_cons_self _ _)
      have hsidn : sid < n := by
        rcases hdisj sid hsidB with h | h
        · exact hg.2.1 sid b h
        · exact hg.2.1 sid next h
      obtain ⟨g1, g2, g3, g4, g5⟩ :=
        splitSymbols_inv dfa n ((dfa.getState m).transitions) b next m sid hsm
          dfa.alphabet t' hg hsidn (hdisj sid hsidB) hm hnext
      obtain ⟨r1, r2, r3, r4, r5, r6⟩ := ih _ (fun s hs => hsub s (List.mem_cons_of_mem _ hs)) g1
        (fun x hxB => by
          by_cases hxs : x = sid
          · subst hxs; exact g4
          · rw [g5 x hxs]; exact hdisj x hxB)
        (by rw [g5 m (fun hh => hsm hh.symm)]; exact hm) g3
      refine ⟨r1, le_trans g2 r2, r3, r4, r5, ?_⟩
      intro x hxB
      have hxs : x ≠ sid := fun hh => hxB (hh ▸ hsidB)
      rw [r6 x hxB, g5 x hxs]

theorem processSet_inv (dfa : DFA) (n : Nat) (t : LookupTable) (B : Finset Nat) (b : Nat)
    (hg : t.Good n) (hB : ∀ x ∈ B, t.state_to_set_map x = some b) :
    (processSet dfa t B).Good n ∧
    t.get_num_sets ≤ (processSet dfa t B).get_num_sets ∧
    (∀ x, x ∉ B → (processSet dfa t B).state_to_set_map x = t.state_to_set_map x) := by
  rw [processSet]
  by_cases hcard : B.card = 1
  · rw [if_pos hcard]
    exact ⟨hg, le_refl _, fun _ _ => rfl⟩
  · rw [if_neg hcard]
    cases hasc : ascList B with
    | nil => exact ⟨hg, le_refl _, fun _ _ => rfl⟩
    | cons m rest =>
      have hmB : m ∈ B := (mem_ascList B m).mp (hasc ▸ List.mem_cons_self _ _)
      have hsub : ∀ s ∈ ascList B, s ∈ B := fun s hs => (mem_ascList B s).mp hs
      obtain ⟨r1, r2, _, _, _, r6⟩ :=
        splitFold_inv dfa n b (t.get_num_sets + 1) m B hmB (ascList B) t hsub hg
          (fun x hx => Or.inl (hB x hx)) (hB m hmB) (le_refl _)
      rw [hasc] at r1 r2 r6
      dsimp only
      exact ⟨r1, r2, r6⟩



theorem pass_fold (dfa : DFA) (n : Nat) :
    ∀ (pairs : SetMap) (t' : LookupTable),
      t'.Good n →
      (pairs.map Prod.fst).Nodup →
      (∀ p ∈ pairs, ∀ x ∈ p.2, t'.state_to_set_map x = some p.1) →
      ((pairs.map Prod.snd).foldl (processSet dfa) t').Good n ∧
      t'.get_num_sets ≤ ((pairs.map Prod.snd).foldl (processSet dfa) t').get_num_sets := by
  intro pairs
  induction pairs with
  | nil => intro t' hg _ _; exact ⟨hg, le_refl _⟩
  | cons hd rest ih =>
    intro t' hg hnd hint
    obtain ⟨b, B⟩ := hd
    simp only [List.map_cons, List.foldl_cons]
    simp only [List.map_cons, List.nodup_cons] at hnd
    obtain ⟨hb0, hnd⟩ := hnd
    obtain ⟨g1, g2, g3⟩ := processSet_inv dfa n t' B b hg
      (fun x hx => hint (b, B) (List.mem_cons_self _ _) x hx)
    have hint2 : ∀ p ∈ rest, ∀ x ∈ p.2,
        (processSet dfa t' B).state_to_set_map x = some p.1 := by
      intro p hp x hx
      have hxk : t'.state_to_set_map x = some p.1 := hint p (List.mem_cons_of_mem _ hp) x hx
      have hxB : x ∉ B := by
        intro hxB
        have hxb : t'.state_to_set_map x = some b :=
          hint (b, B) (List.mem_cons_self _ _) x hxB
        rw [hxk] at hxb
        injection hxb with heq
        exact hb0 (heq ▸ List.mem_map_of_mem Prod.fst hp)
      rw [g3 x hxB]
      exact hxk
    obtain ⟨r1, r2⟩ := ih (processSet dfa t' B) g1 hnd hint2
    exact ⟨r1, le_trans g2 r2⟩

theorem refinePass_inv (dfa : DFA) (n : Nat) (t : LookupTable) (hg : t.Good n) :
    (refinePass dfa t).Good n ∧ t.get_num_sets ≤ (refinePass dfa t).get_num_sets := by
  have hint : ∀ p ∈ t.set_to_states_map, ∀ x ∈ p.2, t.state_to_set_map x = some p.1 := by
    intro p hp x hx
    exact (hg.1.2.2 x p.1).mpr ⟨p.2, lookupA_of_mem _ hg.1.1 p hp, hx⟩
  exact pass_fold dfa n t.set_to_states_map t hg hg.1.1 hint



theorem mem_foldr_union : ∀ (l : SetMap) (x : Nat),
    x ∈ l.foldr (fun p acc => p.2 ∪ acc) (∅ : Finset Nat) ↔ ∃ p ∈ l, x ∈ p.2 := by
  intro l
  induction l with
  | nil => intro x; simp
  | cons hd rest ih =>
    intro x
    simp only [List.foldr_cons, Finset.mem_union, ih, List.mem_cons]
    constructor
    · rintro (h | ⟨p, hp, hx⟩)
      · exact ⟨hd, Or.inl rfl, h⟩
      · exact ⟨p, Or.inr hp, hx⟩
    · rintro ⟨p, hp | hp, hx⟩
      · exact Or.inl (hp ▸ hx)
      · exact Or.inr ⟨p, hp, hx⟩

theorem disjoint_foldr_union (B : Finset Nat) :
    ∀ l : SetMap, (∀ p ∈ l, Disjoint B p.2) →
      Disjoint B (l.foldr (fun p acc => p.2 ∪ acc) (∅ : Finset Nat)) := by
  intro l
  induction l with
  | nil => intro _; simp
  | cons hd rest ih =>
    intro h
    simp only [List.foldr_cons, Finset.disjoint_union_right]
    exact ⟨h hd (List.mem_cons_self _ _), ih (fun p hp => h p (List.mem_cons_of_mem _ hp))⟩

theorem len_le_card_union : ∀ l : SetMap, (∀ p ∈ l, p.2.Nonempty) →
    List.Pairwise (fun p q => Disjoint p.2 q.2) l →
    l.length ≤ (l.foldr (fun p acc => p.2 ∪ acc) (∅ : Finset Nat)).card := by
  intro l
  induction l with
  | nil => intro _ _; simp
  | cons hd rest ih =>
    intro hne hpw
    rw [List.pairwise_cons] at hpw
    have hdisj : Disjoint hd.2 (rest.foldr (fun p acc => p.2 ∪ acc) (∅ : Finset Nat)) :=
      disjoint_foldr_union hd.2 rest hpw.1
    simp only [List.foldr_cons, List.length_cons]
    rw [Finset.card_union_of_disjoint hdisj]
    have h1 : 1 ≤ hd.2.card := Finset.card_pos.mpr (hne hd (List.mem_cons_self _ _))
    have h2 := ih (fun p hp => hne p (List.mem_cons_of_mem _ hp)) hpw.2
    omega

theorem Inv_pairwise (t : LookupTable) (hInv : t.Inv) :
    List.Pairwise (fun p q => Disjoint p.2 q.2) t.set_to_states_map := by
  rw [List.pairwise_iff_getElem]
  intro i j h1 h2 hij
  rw [Finset.disjoint_left]
  intro x hxi hxj
  have hmi : t.set_to_states_map[i] ∈ t.set_to_states_map := List.getElem_mem h1
  have hmj : t.set_to_states_map[j] ∈ t.set_to_states_map := List.getElem_mem h2
  have hkey := Inv_unique t hInv x t.set_to_states_map[i].1 t.set_to_states_map[j].1
    t.set_to_states_map[i].2 t.set_to_states_map[j].2
    (lookupA_of_mem _ hInv.1 _ hmi) hxi (lookupA_of_mem _ hInv.1 _ hmj) hxj
  have hnd := hInv.1
  have : (t.set_to_states_map.map Prod.fst).get ⟨i, by simpa using h1⟩ =
      (t.set_to_states_map.map Prod.fst).get ⟨j, by simpa using h2⟩ := by
    simpa using hkey
  have := List.Nodup.getElem_inj_iff hnd |>.mp this
  omega

theorem num_le_states (t : LookupTable) (n : Nat) (hg : t.Good n) :
    t.get_num_sets ≤ n := by
  have hsub : t.set_to_states_map.foldr (fun p acc => p.2 ∪ acc) (∅ : Finset Nat) ⊆ Finset.range n := by
    intro x hx
    obtain ⟨p, hp, hxp⟩ := (mem_foldr_union _ x).mp hx
    have := (hg.1.2.2 x p.1).mpr ⟨p.2, lookupA_of_mem _ hg.1.1 p hp, hxp⟩
    exact Finset.mem_range.mpr (hg.2.1 x p.1 this)
  have hne : ∀ p ∈ t.set_to_states_map, p.2.Nonempty := by
    intro p hp
    exact hg.1.2.1 p.1 p.2 (lookupA_of_mem _ hg.1.1 p hp)
  calc t.get_num_sets = t.set_to_states_map.length := rfl
    _ ≤ (t.set_to_states_map.foldr (fun p acc => p.2 ∪ acc) (∅ : Finset Nat)).card :=
        len_le_card_union _ hne (Inv_pairwise t hg.1)
    _ ≤ (Finset.range n).card := Finset.card_le_card hsub
    _ = n := Finset.card_range n



theorem new_Good (n : Nat) : LookupTable.new.Good n := by
  refine ⟨LookupTable_new_Inv, ?_, ?_⟩
  · intro s q hq
    cases hq
  · intro p hp
    cases hp

theorem foldl_insert_fresh (n k : Nat) (hk : k ≤ 1) :
    ∀ (xs : List Nat) (t : LookupTable),
      t.Good n → (∀ x ∈ xs, x < n) → (∀ x ∈ xs, t.state_to_set_map x = none) → xs.Nodup →
      (xs.foldl (fun t s => t.insert_state_in_set s k) t).Good n ∧
      (∀ x, x ∉ xs → (xs.foldl (fun t s => t.insert_state_in_set s k) t).state_to_set_map x =
        t.state_to_set_map x) := by
  intro xs
  induction xs with
  | nil => intro t hg _ _ _; exact ⟨hg, fun _ _ => rfl⟩
  | cons s rest ih =>
    intro t hg hlt hnone hnd
    rw [List.foldl_cons]
    rw [List.nodup_cons] at hnd
    obtain ⟨hg', _, _⟩ := insert_good t n s k hg (hlt s (List.mem_cons_self _ _))
      (by omega) (Or.inl (hnone s (List.mem_cons_self _ _)))
    obtain ⟨r1, r2⟩ := ih (t.insert_state_in_set s k) hg'
      (fun x hx => hlt x (List.mem_cons_of_mem _ hx))
      (fun x hx => by
        rw [map_insert_other t s k x (fun hh => hnd.1 (hh ▸ hx))]
        exact hnone x (List.mem_cons_of_mem _ hx))
      hnd.2
    refine ⟨r1, ?_⟩
    intro x hx
    rw [List.mem_cons, not_or] at hx
    rw [r2 x hx.2, map_insert_other t s k x hx.1]

theorem mem_onesIdx (l : List Bool) (x : Nat) :
    x ∈ onesIdx l ↔ x < l.length ∧ l.getD x false = true := by
  simp [onesIdx, List.mem_filter]

theorem mem_zerosIdx (l : List Bool) (x : Nat) :
    x ∈ zerosIdx l ↔ x < l.length ∧ l.getD x false = false := by
  simp [zerosIdx, List.mem_filter]

theorem initTable_good (dfa : DFA) (hwf : dfa.wfAcc) :
    (initTable dfa).Good dfa.states.length := by
  obtain ⟨r1, r2⟩ := foldl_insert_fresh dfa.states.length 0 (by omega)
    (onesIdx dfa.accept_states) LookupTable.new (new_Good _)
    (fun x hx => by
      rw [mem_onesIdx] at hx
      rw [← hwf]
      exact hx.1)
    (fun x _ => rfl)
    ((List.nodup_range _).filter _)
  obtain ⟨q1, _⟩ := foldl_insert_fresh dfa.states.length 1 (by omega)
    (zerosIdx dfa.accept_states)
    ((onesIdx dfa.accept_states).foldl (fun t s => t.insert_state_in_set s 0) LookupTable.new)
    r1
    (fun x hx => by
      rw [mem_zerosIdx] at hx
      rw [← hwf]
      exact hx.1)
    (fun x hx => by
      rw [r2 x (fun hcon => by
        rw [mem_onesIdx] at hcon
        rw [mem_zerosIdx] at hx
        rw [hcon.2] at hx
        cases hx.2)]
      rfl)
    ((List.nodup_range _).filter _)
  exact q1



/-- C7: the refinement loop of construct_minimal_dfa terminates for
every DFA whose acceptor bitset ranges over its states: a pass never
decreases the number of partitions (so a pass that leaves it unchanged
is the final one — and the loop then stops, third conjunct), the
partition count is bounded by the number of DFA states, and
consequently the pass-count equality that exits the loop is reached
within states+1 passes from the initial partition. -/
theorem c7_refinement_terminates (dfa : DFA) (hwf : dfa.wfAcc) :
    (∀ t : LookupTable, t.Good dfa.states.length →
      t.get_num_sets ≤ (refinePass dfa t).get_num_sets ∧
      (refinePass dfa t).Good dfa.states.length) ∧
    (∀ t : LookupTable, t.Good dfa.states.length → t.get_num_sets ≤ dfa.states.length) ∧
    (∀ (fuel : Nat) (t : LookupTable), (refinePass dfa t).get_num_sets = t.get_num_sets →
      refineLoop dfa (fuel + 1) t = refinePass dfa t) ∧
    (∃ j, j ≤ dfa.states.length + 1 ∧
      ((refinePass dfa)^[j + 1] (initTable dfa)).get_num_sets =
        ((refinePass dfa)^[j] (initTable dfa)).get_num_sets) := by
  have hn : (initTable dfa).Good dfa.states.length := initTable_good dfa hwf
  refine ⟨?_, ?_, ?_, ?_⟩
  · intro t hg
    obtain ⟨a, b⟩ := refinePass_inv dfa dfa.states.length t hg
    exact ⟨b, a⟩
  · intro t hg
    exact num_le_states t dfa.states.length hg
  · intro fuel t h
    rw [refineLoop]
    simp only [h, if_true]
  · have hgood : ∀ j, ((refinePass dfa)^[j] (initTable dfa)).Good dfa.states.length := by
      intro j
      induction j with
      | zero => exact hn
      | succ j ih =>
        rw [Function.iterate_succ_apply']
        exact (refinePass_inv dfa dfa.states.length _ ih).1
    have hmono : ∀ j, ((refinePass dfa)^[j] (initTable dfa)).get_num_sets ≤
        ((refinePass dfa)^[j + 1] (initTable dfa)).get_num_sets := by
      intro j
      rw [Function.iterate_succ_apply']
      exact (refinePass_inv dfa dfa.states.length _ (hgood j)).2
    have hbound : ∀ j, ((refinePass dfa)^[j] (initTable dfa)).get_num_sets ≤
        dfa.states.length := fun j => num_le_states _ _ (hgood j)
    by_contra hcon
    push_neg at hcon
    have hstrict : ∀ j, j ≤ dfa.states.length + 1 →
        ((refinePass dfa)^[j] (initTable dfa)).get_num_sets <
        ((refinePass dfa)^[j + 1] (initTable dfa)).get_num_sets := by
      intro j hj
      have h1 := hmono j
      have h2 := hcon j hj
      omega
    have hclimb : ∀ j, j ≤ dfa.states.length + 2 →
        j ≤ ((refinePass dfa)^[j] (initTable dfa)).get_num_sets := by
      intro j
      induction j with
      | zero => intro _; omega
      | succ j ih =>
        intro hj
        have := hstrict j (by omega)
        have := ih (by omega)
        omega
    have := hclimb (dfa.states.length + 2) (le_refl _)
    have := hbound (dfa.states.length + 2)
    omega

/-- Witness for C7 at the two-state DFA with one acceptor. -/
theorem c7_refinement_terminates_witness :
    ∃ j, j ≤ exDfaC7.states.length + 1 ∧
      ((refinePass exDfaC7)^[j + 1] (initTable exDfaC7)).get_num_sets =
        ((refinePass exDfaC7)^[j] (initTable exDfaC7)).get_num_sets :=
  (c7_refinement_terminates exDfaC7 rfl).2.2.2

/-- C1: the claim states that construct_minimal_dfa produces a minimal
DFA with one state per final partition block, with redirected
representative transitions, start block and block acceptance.  The
code refutes it: the function only prints the final partition and
returns unit; its `minimal_dfa` local is `DFA::new()` and is never
populated.  In the embedding, the automaton coming out of
construct_minimal_dfa is the empty DFA for every input; on the
two-state DFA with both states accepting the final partition has one
block, yet the produced automaton has no state at all. -/
theorem c1_no_reconstruction :
    (∀ d : DFA, (construct_minimal_dfa d).2 = DFA.new) ∧
    (construct_minimal_dfa exDfaC1).1.get_num_sets = 1 ∧
    (construct_minimal_dfa exDfaC1).2.states = [] ∧
    (construct_minimal_dfa exDfaC1).2.accept_states = [] :=
  ⟨fun _ => rfl, rfl, rfl, rfl⟩

end CT
